import Mathlib

/-!
# Verification of the simple-regex pattern compiler and NFA simulator

This file is a shallow embedding of `src/main.rs`: a restricted
regular-expression pattern is compiled to a nondeterministic finite
automaton (Thompson's construction) and the automaton is simulated
against an input string.

Modelling conventions, chosen to mirror the Rust source exactly:

* `State` is `Nat` (Rust `usize`; the fresh-state counter never wraps in
  practice and all values stay tiny, so `Nat` is faithful).
* `Transitions` models `HashMap<State, Vec<(Label, State)>>` as an
  association list.  `getTrans` models `HashMap::get`, `addTrans` models
  `entry(..).or_default().push(..)` and `extendTrans` models
  `HashMap::extend` (replace on key collision).  The simulator observes
  the map only through `get`, and all acceptance results are proved as
  set-membership facts, so the (unspecified) iteration order of the Rust
  `HashMap`/`HashSet` is irrelevant to every theorem below.
* `StateSet` models `HashSet<State>` as a list; insertion
  (`insertS`) refuses duplicates, exactly like `HashSet::insert`, and
  every property proved about state sets is membership-based.
* The parser state `PState` keeps the still-unconsumed suffix of the
  pattern (the Rust source keeps the whole string plus a byte index `i`
  that always sits on a character boundary and only moves forward, so
  the remaining suffix is an equivalent view) together with the
  fresh-state counter `next_state`.
* The mutually recursive parsing functions of the source are given a
  structurally decreasing fuel argument (the standard shallow-embedding
  device for general recursion); each parsing function consumes one unit
  of fuel per call, and `regex_to_nfa` supplies fuel that is amply
  sufficient for the recursion and iteration performed on a pattern of
  the given length.
* `eps_closure`'s worklist loop likewise runs on fuel; the fuel passed
  is one more than an upper bound of the quantity (number of epsilon
  targets not yet in the result) + (stack length), which the loop
  strictly decreases, so the guard is never hit (this is proved as part
  of the epsilon-closure theorems).
* The `unwrap()` in `regex_match` panics when compilation fails; the
  panic is modelled by `Option.none`.
-/

set_option maxRecDepth 10000

abbrev State := Nat
abbrev Label := Option Char
abbrev StateSet := List State
abbrev TransList := List (Label × State)
abbrev Transitions := List (State × TransList)

/-- Models `HashMap::get` on the transition map. -/
def getTrans (t : Transitions) (s : State) : Option TransList :=
  (t.find? (fun p => p.1 == s)).map (fun p => p.2)

/-- The keys of the transition map. -/
def keysTrans (t : Transitions) : List State := t.map (fun p => p.1)

/-- Models `HashMap::insert`: replace the value if the key is present,
otherwise append a new entry. -/
def insertTrans (t : Transitions) (s : State) (v : TransList) : Transitions :=
  if s ∈ keysTrans t then
    t.map (fun p => if p.1 == s then (s, v) else p)
  else
    t ++ [(s, v)]

/-- Models `self.transitions.entry(from).or_default().push((label, to))`. -/
def addTrans (t : Transitions) (f : State) (l : Label) (dst : State) : Transitions :=
  match getTrans t f with
  | some v => insertTrans t f (v ++ [(l, dst)])
  | none => t ++ [(f, [(l, dst)])]

/-- Models `HashMap::extend`: insert every entry of `t2` into `t1`,
replacing on key collision. -/
def extendTrans (t1 t2 : Transitions) : Transitions :=
  t2.foldl (fun acc p => insertTrans acc p.1 p.2) t1

/-- The NFA produced by the compiler: unique start state, unique accept
state, and the transition map. -/
structure Nfa where
  start : Nat
  accept : Nat
  transitions : Transitions
deriving DecidableEq, Repr

/-- Models `Nfa::add_transition`. -/
def Nfa.add_transition (nfa : Nfa) (f : State) (l : Label) (dst : State) : Nfa :=
  { nfa with transitions := addTrans nfa.transitions f l dst }

/-- Models `HashSet::insert` (no duplicates). -/
def insertS (s : StateSet) (x : State) : StateSet := if x ∈ s then s else x :: s

/-- The inner `for` loop of `eps_closure`: for every epsilon transition
in `pairs` whose target is not already in the result `ec`, add the
target to both the result and the worklist. -/
def epsStep : TransList → StateSet → List State → StateSet × List State
  | [], ec, stack => (ec, stack)
  | (l, t) :: ps, ec, stack =>
    match l with
    | none => if t ∈ ec then epsStep ps ec stack else epsStep ps (t :: ec) (t :: stack)
    | some _ => epsStep ps ec stack

/-- All epsilon-transition targets occurring anywhere in the map; the
number of distinct such states bounds how often the worklist can grow. -/
def epsTargetsL (t : Transitions) : List State :=
  t.flatMap (fun p => p.2.filterMap (fun q => match q.1 with
    | none => some q.2
    | some _ => none))

/-- The worklist loop of `eps_closure` (`while let Some(state) = stack.pop()`),
on fuel. -/
def epsLoopF (tr : Transitions) : Nat → StateSet → List State → StateSet
  | 0, ec, _ => ec
  | _ + 1, ec, [] => ec
  | f + 1, ec, s :: rest =>
    match getTrans tr s with
    | none => epsLoopF tr f ec rest
    | some pairs =>
      let p := epsStep pairs ec rest
      epsLoopF tr f p.1 p.2

/-- Models `Nfa::eps_closure`: seed result and worklist with `states`,
then run the worklist loop.  The fuel passed strictly exceeds the
loop's decreasing measure, so the loop always runs to completion
(proved below). -/
def Nfa.eps_closure (nfa : Nfa) (states : StateSet) : StateSet :=
  epsLoopF nfa.transitions
    ((epsTargetsL nfa.transitions).length + states.length + 1) states states

/-- The inner loop of `get_move` over one state's transition list. -/
def moveStep (symbol : Char) (pairs : TransList) (res : StateSet) : StateSet :=
  pairs.foldl (fun r q => match q.1 with
    | some c => if c = symbol then insertS r q.2 else r
    | none => r) res

/-- Models `Nfa::get_move`: all states reachable from `states` by a
single transition labelled exactly `symbol`. -/
def Nfa.get_move (nfa : Nfa) (states : StateSet) (symbol : Char) : StateSet :=
  states.foldl (fun res f => match getTrans nfa.transitions f with
    | some pairs => moveStep symbol pairs res
    | none => res) []

/-- Models `Nfa::simulate` (figure 3.37 of the dragon book): start from
the epsilon closure of the start state, alternate move/closure per input
character, and accept iff the accept state is in the final set. -/
def Nfa.simulate (nfa : Nfa) (input : String) : Bool :=
  let s0 : StateSet := [nfa.start]
  let init := nfa.eps_closure s0
  let final := input.data.foldl
    (fun states c => nfa.eps_closure (nfa.get_move states c)) init
  decide (nfa.accept ∈ final)

/-! ## The parser -/

/-- Parser state: the unconsumed suffix of the pattern and the
fresh-state counter (`next_state` in the source). -/
structure PState where
  rest : List Char
  next : Nat
deriving DecidableEq, Repr

/-- Models `Parser::fresh`. -/
def fresh (st : PState) : State × PState :=
  (st.next, { st with next := st.next + 1 })

/-- Models `Parser::peek`. -/
def peek (st : PState) : Label := st.rest.head?

/-- Models `Parser::consume`. -/
def consume (st : PState) : Label × PState :=
  match st.rest with
  | [] => (none, st)
  | c :: cs => (some c, { st with rest := cs })

/-- Models `Parser::eat`. -/
def eat (st : PState) (expected : Char) : Bool × PState :=
  if peek st = some expected then (true, (consume st).2) else (false, st)

/-- Models `Parser::build_char`. -/
def build_char (st : PState) (c : Char) : Nfa × PState :=
  let (s, st1) := fresh st
  let (a, st2) := fresh st1
  let nfa : Nfa := { start := s, accept := a, transitions := [] }
  (nfa.add_transition s (some c) a, st2)

/-- Models `Parser::build_concat` (it takes `&mut self` in the source
but never touches the fresh-state counter). -/
def build_concat (left right : Nfa) : Nfa :=
  let transitions := extendTrans left.transitions right.transitions
  let nfa : Nfa := { start := left.start, accept := right.accept, transitions := transitions }
  nfa.add_transition left.accept none right.start

/-- Models `Parser::build_alt`. -/
def build_alt (st : PState) (left right : Nfa) : Nfa × PState :=
  let (s, st1) := fresh st
  let (a, st2) := fresh st1
  let transitions := extendTrans left.transitions right.transitions
  let nfa : Nfa := { start := s, accept := a, transitions := transitions }
  ((((nfa.add_transition s none left.start).add_transition s none right.start).add_transition
      left.accept none a).add_transition right.accept none a, st2)

/-- Models `Parser::build_star`. -/
def build_star (st : PState) (inner : Nfa) : Nfa × PState :=
  let (s, st1) := fresh st
  let (a, st2) := fresh st1
  let nfa : Nfa := { start := s, accept := a, transitions := inner.transitions }
  ((((nfa.add_transition s none inner.start).add_transition s none a).add_transition
      inner.accept none inner.start).add_transition inner.accept none a, st2)

/-- The `match res { None => Err(..), Some(nfa) => Ok(..) }` at the end
of `parse_concat`. -/
def concat_finish (res : Option Nfa) (st : PState) : Except String (Nfa × PState) :=
  match res with
  | none => Except.error "Expected expression"
  | some nfa => Except.ok (nfa, st)

mutual

/-- Models `Parser::parse_regex`. -/
def parse_regex : Nat → PState → Except String (Nfa × PState)
  | 0, _ => Except.error "fuel"
  | f + 1, st => parse_alt f st

/-- Models `Parser::parse_alt`. -/
def parse_alt : Nat → PState → Except String (Nfa × PState)
  | 0, _ => Except.error "fuel"
  | f + 1, st =>
    match parse_concat f st with
    | Except.error e => Except.error e
    | Except.ok (left, st1) => parse_alt_go f left st1

/-- The `while self.eat('|')` loop of `parse_alt`. -/
def parse_alt_go : Nat → Nfa → PState → Except String (Nfa × PState)
  | 0, _, _ => Except.error "fuel"
  | f + 1, left, st =>
    let e := eat st '|'
    if e.1 then
      match parse_concat f e.2 with
      | Except.error er => Except.error er
      | Except.ok (right, st2) =>
        let b := build_alt st2 left right
        parse_alt_go f b.1 b.2
    else Except.ok (left, st)

/-- Models `Parser::parse_concat`. -/
def parse_concat : Nat → PState → Except String (Nfa × PState)
  | 0, _ => Except.error "fuel"
  | f + 1, st => parse_concat_go f none st

/-- The `while let Some(c) = self.peek()` loop of `parse_concat`,
carrying the accumulated result `res`. -/
def parse_concat_go : Nat → Option Nfa → PState → Except String (Nfa × PState)
  | 0, _, _ => Except.error "fuel"
  | f + 1, res, st =>
    match peek st with
    | some c =>
      if c = ')' ∨ c = '|' then concat_finish res st
      else
        match parse_rep f st with
        | Except.error e => Except.error e
        | Except.ok (rep, st1) =>
          match res with
          | some nfa => parse_concat_go f (some (build_concat nfa rep)) st1
          | none => parse_concat_go f (some rep) st1
    | none => concat_finish res st

/-- Models `Parser::parse_rep`. -/
def parse_rep : Nat → PState → Except String (Nfa × PState)
  | 0, _ => Except.error "fuel"
  | f + 1, st =>
    match parse_primary f st with
    | Except.error e => Except.error e
    | Except.ok (nfa, st1) =>
      let e := eat st1 '*'
      if e.1 then
        let b := build_star e.2 nfa
        Except.ok (b.1, b.2)
      else Except.ok (nfa, st1)

/-- Models `Parser::parse_primary`. -/
def parse_primary : Nat → PState → Except String (Nfa × PState)
  | 0, _ => Except.error "fuel"
  | f + 1, st =>
    match peek st with
    | some '(' =>
      let st1 := (consume st).2
      match parse_regex f st1 with
      | Except.error e => Except.error e
      | Except.ok (nfa, st2) =>
        let e := eat st2 ')'
        if e.1 then Except.ok (nfa, e.2) else Except.error "Expected ')'"
    | some '*' | some '|' | some ')' => Except.error "Unexpected token"
    | none => Except.error "Unexpected token"
    | some c =>
      let st1 := (consume st).2
      let b := build_char st1 c
      Except.ok (b.1, b.2)

end

/-- Fuel supplied by `regex_to_nfa`: each parsing call consumes one
unit, and the recursion/iteration of the parser is linear in the length
of the pattern, so this is amply sufficient. -/
def parseFuel (pattern : List Char) : Nat := 10 * (pattern.length + 2)

/-- Models `regex_to_nfa`: parse, then fail with `Unexpected trailing
characters` if input remains. -/
def regex_to_nfa (pattern : String) : Except String Nfa :=
  let st : PState := { rest := pattern.data, next := 0 }
  match parse_regex (parseFuel pattern.data) st with
  | Except.error e => Except.error e
  | Except.ok (nfa, st2) =>
    match peek st2 with
    | some _ => Except.error "Unexpected trailing characters"
    | none => Except.ok nfa

/-- Models `regex_match`.  The source calls
`regex_to_nfa(pattern).unwrap()`, which panics when compilation fails;
the panic is modelled by `none`. -/
def regex_match (pattern input : String) : Option Bool :=
  match regex_to_nfa pattern with
  | Except.ok nfa => some (nfa.simulate input)
  | Except.error _ => none

/-! ## Semantic notions used by the specifications -/

/-- There is an epsilon transition from `a` to `b` in the map `tr`. -/
def epsEdge (tr : Transitions) (a b : State) : Prop :=
  ∃ v, getTrans tr a = some v ∧ ((none : Label), b) ∈ v

/-- There is a transition labelled `c` from `a` to `b` in the map `tr`. -/
def charEdge (tr : Transitions) (a : State) (c : Char) (b : State) : Prop :=
  ∃ v, getTrans tr a = some v ∧ (some c, b) ∈ v

/-- A set of states is closed under epsilon transitions of `tr`. -/
def EpsClosedSet (tr : Transitions) (T : Set State) : Prop :=
  ∀ a ∈ T, ∀ b, epsEdge tr a b → b ∈ T

/-- The decreasing measure of the worklist loop: number of distinct
epsilon targets not yet in the result, plus the worklist length. -/
def epsMeasure (tr : Transitions) (ec : StateSet) (stack : List State) : Nat :=
  ((epsTargetsL tr).toFinset \ ec.toFinset).card + stack.length

/-- One step of the simulation loop: move on `c`, then epsilon-close. -/
def simStep (nfa : Nfa) (states : StateSet) (c : Char) : StateSet :=
  nfa.eps_closure (nfa.get_move states c)

/-- The transition `(f, l, d)` is present in the map `t`. -/
def transMem (t : Transitions) (f : State) (l : Label) (d : State) : Prop :=
  ∃ v, getTrans t f = some v ∧ (l, d) ∈ v

/-- The key sets of two transition maps do not overlap. -/
def keysDisjoint (t1 t2 : Transitions) : Prop :=
  ∀ k, k ∈ keysTrans t1 → k ∉ keysTrans t2

/-- `s` lies in the half-open state window `[a, b)`. -/
def inWindow (a b s : Nat) : Prop := a ≤ s ∧ s < b

/-- Every state mentioned by the automaton (start, accept, transition
sources and targets) lies in the window `[a, b)`: exactly the states the
fresh-state counter handed out while this fragment was being built. -/
def NfaWindow (nfa : Nfa) (a b : Nat) : Prop :=
  inWindow a b nfa.start ∧ inWindow a b nfa.accept ∧
    ∀ e ∈ nfa.transitions, inWindow a b e.1 ∧ ∀ q ∈ e.2, inWindow a b q.2

/-- The invariant every fragment built by the compiler satisfies: its
states fill the window `[a, b)`, the transition map has no duplicate
keys, and the accept state has no outgoing transitions. -/
def GoodNfa (nfa : Nfa) (a b : Nat) : Prop :=
  NfaWindow nfa a b ∧ (keysTrans nfa.transitions).Nodup ∧
    getTrans nfa.transitions nfa.accept = none

instance (nfa : Nfa) (a b : Nat) : Decidable (NfaWindow nfa a b) := by
  unfold NfaWindow inWindow
  infer_instance

instance (nfa : Nfa) (a b : Nat) : Decidable (GoodNfa nfa a b) := by
  unfold GoodNfa
  infer_instance

/-- The character `c` may appear as a literal in a pattern. -/
def isLiteral (c : Char) : Prop := c ≠ '(' ∧ c ≠ ')' ∧ c ≠ '|' ∧ c ≠ '*'

instance (c : Char) : Decidable (isLiteral c) := by
  unfold isLiteral
  infer_instance

/-- The transition map of the NFA that the compiler builds for a
purely-literal pattern `cs`, occupying states `n, n+1, …`: state `n+2i`
steps to `n+2i+1` on the i-th literal, and state `n+2i+1` has an epsilon
transition to `n+2i+2` (except for the last, accepting, odd state). -/
def chainGet : List Char → Nat → State → Option TransList
  | [], _, _ => none
  | [c], n, s => if s = n then some [(some c, n + 1)] else none
  | c :: c' :: cs, n, s =>
    if s = n then some [(some c, n + 1)]
    else if s = n + 1 then some [((none : Label), n + 2)]
    else chainGet (c' :: cs) (n + 2) s

/-- The left-associated fold by which the compiler concatenates the
literal fragments of a purely-literal pattern: append each literal's
two-state fragment to the accumulator with `build_concat`. -/
def chainAppend (acc : Nfa) (n : Nat) : List Char → Nfa
  | [] => acc
  | c :: cs =>
    chainAppend (build_concat acc (Nfa.mk n (n + 1) [(n, [(some c, n + 1)])])) (n + 2) cs

/-- The automaton that `regex_to_nfa "a*"` returns (checked by `rfl`
below): literal fragment on states 0/1, star wrapper on states 2/3. -/
def starA : Nfa :=
  { start := 2, accept := 3,
    transitions := [(0, [(some 'a', 1)]), (2, [((none : Label), 0), (none, 3)]),
      (1, [((none : Label), 0), (none, 3)])] }

example : regex_to_nfa "a" =
    Except.ok { start := 0, accept := 1, transitions := [(0, [(some 'a', 1)])] } := rfl

example : regex_to_nfa "" = Except.error "Expected expression" := rfl

example : regex_to_nfa "a*" =
    Except.ok
      { start := 2, accept := 3,
        transitions := [(0, [(some 'a', 1)]), (2, [(none, 0), (none, 3)]),
          (1, [(none, 0), (none, 3)])] } := rfl

example : regex_match "a" "a" = some true := by decide

example : regex_match "a*b|c" "aaab" = some true := by decide

example : regex_match "a*b|c" "c" = some true := by decide

example : regex_match "a*b|c" "aaabc" = some false := by decide


/-! ## Association-list lemmas for the transition map -/

theorem keysTrans_cons (e : State × TransList) (t : Transitions) :
    keysTrans (e :: t) = e.1 :: keysTrans t := rfl

theorem getTrans_cons (e : State × TransList) (t : Transitions) (s : State) :
    getTrans (e :: t) s = if e.1 = s then some e.2 else getTrans t s := by
  by_cases h : e.1 = s <;> simp [getTrans, List.find?_cons, h]

theorem getTrans_eq_none_iff (t : Transitions) (s : State) :
    getTrans t s = none ↔ s ∉ keysTrans t := by
  induction t with
  | nil => simp [getTrans, keysTrans]
  | cons e t ih =>
    rw [getTrans_cons, keysTrans_cons]
    by_cases h : e.1 = s
    · simp [h]
    · simp [h, ih, Ne.symm h]

theorem getTrans_mem (t : Transitions) (s : State) (v : TransList)
    (h : getTrans t s = some v) : (s, v) ∈ t := by
  induction t with
  | nil => simp [getTrans] at h
  | cons e t ih =>
    rw [getTrans_cons] at h
    by_cases he : e.1 = s
    · rw [if_pos he] at h
      injection h with h
      have : e = (s, v) := by
        obtain ⟨e1, e2⟩ := e
        simp only at he h
        rw [he, h]
      rw [this]
      exact List.mem_cons_self _ _
    · rw [if_neg he] at h
      exact List.mem_cons_of_mem _ (ih h)

theorem keysTrans_append (t1 t2 : Transitions) :
    keysTrans (t1 ++ t2) = keysTrans t1 ++ keysTrans t2 := by
  simp [keysTrans]

theorem getTrans_append_single (t : Transitions) (f k : State) (w : TransList) :
    getTrans (t ++ [(f, w)]) k =
      match getTrans t k with
      | some v => some v
      | none => if k = f then some w else none := by
  induction t with
  | nil =>
    simp only [List.nil_append]
    rw [getTrans_cons]
    by_cases h : k = f
    · subst h
      simp [getTrans]
    · rw [if_neg (fun hc : (f, w).1 = k => h hc.symm)]
      simp [getTrans, h]
  | cons e t ih =>
    simp only [List.cons_append]
    rw [getTrans_cons, getTrans_cons]
    by_cases h : e.1 = k <;> simp [h, ih]

theorem keysTrans_mapReplace (t : Transitions) (s : State) (v : TransList) :
    keysTrans (t.map (fun p => if p.1 = s then (s, v) else p)) = keysTrans t := by
  induction t with
  | nil => rfl
  | cons e t ih =>
    simp only [List.map_cons]
    by_cases h : e.1 = s
    · rw [if_pos h, keysTrans_cons, keysTrans_cons, ih, h]
    · rw [if_neg h, keysTrans_cons, keysTrans_cons, ih]

theorem getTrans_mapReplace_ne (t : Transitions) (s k : State) (v : TransList)
    (hk : k ≠ s) :
    getTrans (t.map (fun p => if p.1 = s then (s, v) else p)) k = getTrans t k := by
  induction t with
  | nil => rfl
  | cons e t ih =>
    simp only [List.map_cons]
    by_cases h : e.1 = s
    · rw [if_pos h, getTrans_cons, getTrans_cons]
      rw [if_neg (fun hc : ((s, v) : State × TransList).1 = k => hk hc.symm)]
      rw [if_neg (fun hc : e.1 = k => hk (by rw [← hc, h]))]
      exact ih
    · rw [if_neg h, getTrans_cons, getTrans_cons]
      by_cases h2 : e.1 = k
      · rw [if_pos h2, if_pos h2]
      · rw [if_neg h2, if_neg h2, ih]

theorem getTrans_mapReplace_self (t : Transitions) (s : State) (v : TransList)
    (hs : s ∈ keysTrans t) :
    getTrans (t.map (fun p => if p.1 = s then (s, v) else p)) s = some v := by
  induction t with
  | nil => simp [keysTrans] at hs
  | cons e t ih =>
    simp only [List.map_cons]
    by_cases h : e.1 = s
    · rw [if_pos h, getTrans_cons]
      simp
    · rw [if_neg h, getTrans_cons, if_neg h]
      refine ih ?_
      rw [keysTrans_cons] at hs
      rcases List.mem_cons.mp hs with hs | hs
      · exact absurd hs.symm h
      · exact hs

theorem insertTrans_eq (t : Transitions) (s : State) (v : TransList) :
    insertTrans t s v =
      if s ∈ keysTrans t then t.map (fun p => if p.1 = s then (s, v) else p)
      else t ++ [(s, v)] := by
  unfold insertTrans
  by_cases hs : s ∈ keysTrans t <;> simp only [hs, if_true, if_false]
  exact List.map_congr_left (fun p _ => by by_cases h : p.1 = s <;> simp [h])

theorem getTrans_insertTrans (t : Transitions) (s k : State) (v : TransList) :
    getTrans (insertTrans t s v) k = if k = s then some v else getTrans t k := by
  rw [insertTrans_eq]
  by_cases hs : s ∈ keysTrans t <;> simp only [hs, if_true, if_false]
  · by_cases hk : k = s
    · subst hk
      simp [getTrans_mapReplace_self t k v hs]
    · simp [getTrans_mapReplace_ne t s k v hk, hk]
  · rw [getTrans_append_single]
    by_cases hk : k = s
    · subst hk
      rw [(getTrans_eq_none_iff t k).mpr hs]
    · cases h : getTrans t k <;> simp [hk]

theorem keysTrans_insertTrans_mem (t : Transitions) (s k : State) (v : TransList) :
    k ∈ keysTrans (insertTrans t s v) ↔ k ∈ keysTrans t ∨ k = s := by
  rw [insertTrans_eq]
  by_cases hs : s ∈ keysTrans t <;> simp only [hs, if_true, if_false]
  · rw [keysTrans_mapReplace]
    constructor
    · exact fun h => Or.inl h
    · rintro (h | h)
      · exact h
      · exact h ▸ hs
  · rw [keysTrans_append]
    simp [keysTrans]

theorem keysTrans_insertTrans_nodup (t : Transitions) (s : State) (v : TransList)
    (h : (keysTrans t).Nodup) : (keysTrans (insertTrans t s v)).Nodup := by
  rw [insertTrans_eq]
  by_cases hs : s ∈ keysTrans t <;> simp only [hs, if_true, if_false]
  · rwa [keysTrans_mapReplace]
  · rw [keysTrans_append]
    simp only [keysTrans, List.map_cons, List.map_nil]
    rw [List.nodup_append]
    refine ⟨h, List.nodup_singleton s, ?_⟩
    intro x hx hxs
    rcases List.mem_singleton.mp hxs with rfl
    exact hs hx

theorem getTrans_addTrans (t : Transitions) (f k : State) (l : Label) (d : State) :
    getTrans (addTrans t f l d) k =
      if k = f then some (((getTrans t f).getD []) ++ [(l, d)]) else getTrans t k := by
  unfold addTrans
  cases h : getTrans t f with
  | some v => rw [getTrans_insertTrans]; simp [h]
  | none =>
    rw [getTrans_append_single]
    by_cases hk : k = f
    · subst hk
      rw [h]
      simp
    · cases h2 : getTrans t k <;> simp [hk]

theorem keysTrans_addTrans_mem (t : Transitions) (f : State) (l : Label) (d k : State) :
    k ∈ keysTrans (addTrans t f l d) ↔ k ∈ keysTrans t ∨ k = f := by
  unfold addTrans
  cases h : getTrans t f with
  | some v => rw [keysTrans_insertTrans_mem]
  | none => rw [keysTrans_append]; simp [keysTrans]

theorem keysTrans_addTrans_nodup (t : Transitions) (f : State) (l : Label) (d : State)
    (h : (keysTrans t).Nodup) : (keysTrans (addTrans t f l d)).Nodup := by
  unfold addTrans
  cases hf : getTrans t f with
  | some v => exact keysTrans_insertTrans_nodup t f _ h
  | none =>
    rw [keysTrans_append]
    have hfk : f ∉ keysTrans t := (getTrans_eq_none_iff t f).mp hf
    simp only [keysTrans, List.map_cons, List.map_nil]
    rw [List.nodup_append]
    refine ⟨h, List.nodup_singleton f, ?_⟩
    intro x hx hxf
    rcases List.mem_singleton.mp hxf with rfl
    exact hfk hx

theorem getTrans_extendTrans (t1 t2 : Transitions) (h2 : (keysTrans t2).Nodup) (k : State) :
    getTrans (extendTrans t1 t2) k =
      match getTrans t2 k with
      | some v => some v
      | none => getTrans t1 k := by
  induction t2 generalizing t1 with
  | nil => rfl
  | cons e t2' ih =>
    rw [keysTrans_cons] at h2
    have hnd : (keysTrans t2').Nodup := h2.of_cons
    have hhead : e.1 ∉ keysTrans t2' := (List.nodup_cons.mp h2).1
    show getTrans (extendTrans (insertTrans t1 e.1 e.2) t2') k = _
    rw [ih _ hnd]
    rw [show getTrans (e :: t2') k = if e.1 = k then some e.2 else getTrans t2' k from
      getTrans_cons _ _ _]
    by_cases hk : e.1 = k
    · rw [if_pos hk]
      rw [(getTrans_eq_none_iff t2' k).mpr (hk ▸ hhead)]
      rw [getTrans_insertTrans]
      simp [hk.symm]
    · rw [if_neg hk]
      cases h : getTrans t2' k with
      | some v => simp
      | none =>
        simp only
        rw [getTrans_insertTrans, if_neg (fun hc : k = e.1 => hk hc.symm)]

theorem keysTrans_extendTrans_mem (t1 t2 : Transitions) (k : State) :
    k ∈ keysTrans (extendTrans t1 t2) ↔ k ∈ keysTrans t1 ∨ k ∈ keysTrans t2 := by
  induction t2 generalizing t1 with
  | nil => simp [extendTrans, keysTrans]
  | cons e t2' ih =>
    show k ∈ keysTrans (extendTrans (insertTrans t1 e.1 e.2) t2') ↔ _
    rw [ih, keysTrans_insertTrans_mem, keysTrans_cons]
    simp only [List.mem_cons]
    tauto

theorem keysTrans_extendTrans_nodup (t1 t2 : Transitions)
    (h1 : (keysTrans t1).Nodup) : (keysTrans (extendTrans t1 t2)).Nodup := by
  induction t2 generalizing t1 with
  | nil => exact h1
  | cons e t2' ih => exact ih _ (keysTrans_insertTrans_nodup t1 e.1 e.2 h1)

/-! ## The epsilon-closure worklist: invariants and termination measure -/

theorem epsStep_ec_sub (ps : TransList) (ec : StateSet) (stack : List State)
    (x : State) (hx : x ∈ ec) : x ∈ (epsStep ps ec stack).1 := by
  induction ps generalizing ec stack with
  | nil => exact hx
  | cons q ps ih =>
    obtain ⟨l, t⟩ := q
    cases l with
    | none =>
      by_cases h : t ∈ ec
      · simp only [epsStep, h, if_true]
        exact ih ec stack hx
      · simp only [epsStep, h, if_false]
        exact ih _ _ (List.mem_cons_of_mem _ hx)
    | some c =>
      simp only [epsStep]
      exact ih ec stack hx

theorem epsStep_stack_sub (ps : TransList) (ec : StateSet) (stack : List State)
    (x : State) (hx : x ∈ stack) : x ∈ (epsStep ps ec stack).2 := by
  induction ps generalizing ec stack with
  | nil => exact hx
  | cons q ps ih =>
    obtain ⟨l, t⟩ := q
    cases l with
    | none =>
      by_cases h : t ∈ ec
      · simp only [epsStep, h, if_true]
        exact ih ec stack hx
      · simp only [epsStep, h, if_false]
        exact ih _ _ (List.mem_cons_of_mem _ hx)
    | some c =>
      simp only [epsStep]
      exact ih ec stack hx

theorem epsStep_ec_cases (ps : TransList) (ec : StateSet) (stack : List State)
    (x : State) (hx : x ∈ (epsStep ps ec stack).1) :
    x ∈ ec ∨ ((none : Label), x) ∈ ps := by
  induction ps generalizing ec stack with
  | nil => exact Or.inl hx
  | cons q ps ih =>
    obtain ⟨l, t⟩ := q
    cases l with
    | none =>
      by_cases h : t ∈ ec
      · simp only [epsStep, h, if_true] at hx
        rcases ih ec stack hx with h2 | h2
        · exact Or.inl h2
        · exact Or.inr (List.mem_cons_of_mem _ h2)
      · simp only [epsStep, h, if_false] at hx
        rcases ih _ _ hx with h2 | h2
        · rcases List.mem_cons.mp h2 with h3 | h3
          · exact Or.inr (h3 ▸ List.mem_cons_self _ _)
          · exact Or.inl h3
        · exact Or.inr (List.mem_cons_of_mem _ h2)
    | some c =>
      simp only [epsStep] at hx
      rcases ih ec stack hx with h2 | h2
      · exact Or.inl h2
      · exact Or.inr (List.mem_cons_of_mem _ h2)

theorem epsStep_stack_cases (ps : TransList) (ec : StateSet) (stack : List State)
    (x : State) (hx : x ∈ (epsStep ps ec stack).2) :
    x ∈ stack ∨ x ∈ (epsStep ps ec stack).1 := by
  induction ps generalizing ec stack with
  | nil => exact Or.inl hx
  | cons q ps ih =>
    obtain ⟨l, t⟩ := q
    cases l with
    | none =>
      by_cases h : t ∈ ec
      · simp only [epsStep, h, if_true] at hx ⊢
        exact ih ec stack hx
      · simp only [epsStep, h, if_false] at hx ⊢
        rcases ih _ _ hx with h2 | h2
        · rcases List.mem_cons.mp h2 with h3 | h3
          · exact Or.inr (h3 ▸ epsStep_ec_sub _ _ _ _ (List.mem_cons_self _ _))
          · exact Or.inl h3
        · exact Or.inr h2
    | some c =>
      simp only [epsStep] at hx ⊢
      exact ih ec stack hx

theorem epsStep_target_mem (ps : TransList) (ec : StateSet) (stack : List State)
    (x : State) (hx : ((none : Label), x) ∈ ps) : x ∈ (epsStep ps ec stack).1 := by
  induction ps generalizing ec stack with
  | nil => simp at hx
  | cons q ps ih =>
    obtain ⟨l, t⟩ := q
    rcases List.mem_cons.mp hx with h0 | h0
    · have hl : l = none ∧ t = x := by
        have := h0.symm
        exact ⟨congrArg Prod.fst this, congrArg Prod.snd this⟩
      obtain ⟨rfl, rfl⟩ := hl
      by_cases h : t ∈ ec
      · simp only [epsStep, h, if_true]
        exact epsStep_ec_sub _ _ _ _ h
      · simp only [epsStep, h, if_false]
        exact epsStep_ec_sub _ _ _ _ (List.mem_cons_self _ _)
    · cases l with
      | none =>
        by_cases h : t ∈ ec
        · simp only [epsStep, h, if_true]
          exact ih _ _ h0
        · simp only [epsStep, h, if_false]
          exact ih _ _ h0
      | some c =>
        simp only [epsStep]
        exact ih _ _ h0

theorem epsStep_new_pushed (ps : TransList) (ec : StateSet) (stack : List State)
    (x : State) (hx : x ∈ (epsStep ps ec stack).1) :
    x ∈ ec ∨ x ∈ (epsStep ps ec stack).2 := by
  induction ps generalizing ec stack with
  | nil => exact Or.inl hx
  | cons q ps ih =>
    obtain ⟨l, t⟩ := q
    cases l with
    | none =>
      by_cases h : t ∈ ec
      · simp only [epsStep, h, if_true] at hx ⊢
        exact ih ec stack hx
      · simp only [epsStep, h, if_false] at hx ⊢
        rcases ih _ _ hx with h2 | h2
        · rcases List.mem_cons.mp h2 with h3 | h3
          · exact Or.inr (h3 ▸ epsStep_stack_sub _ _ _ _ (List.mem_cons_self _ _))
          · exact Or.inl h3
        · exact Or.inr h2
    | some c =>
      simp only [epsStep] at hx ⊢
      exact ih ec stack hx

theorem epsStep_measure (ps : TransList) (ec : StateSet) (stack : List State)
    (E : Finset State) (hE : ∀ x, ((none : Label), x) ∈ ps → x ∈ E) :
    (E \ (epsStep ps ec stack).1.toFinset).card + (epsStep ps ec stack).2.length ≤
      (E \ ec.toFinset).card + stack.length := by
  induction ps generalizing ec stack with
  | nil => exact le_refl _
  | cons q ps ih =>
    obtain ⟨l, t⟩ := q
    cases l with
    | none =>
      by_cases h : t ∈ ec
      · simp only [epsStep, h, if_true]
        exact ih ec stack (fun x hx => hE x (List.mem_cons_of_mem _ hx))
      · simp only [epsStep, h, if_false]
        refine le_trans (ih _ _ (fun x hx => hE x (List.mem_cons_of_mem _ hx))) ?_
        have htE : t ∈ E \ ec.toFinset := by
          rw [Finset.mem_sdiff]
          exact ⟨hE t (List.mem_cons_self _ _), fun hc => h (List.mem_toFinset.mp hc)⟩
        have hcard : (E \ (t :: ec).toFinset).card = (E \ ec.toFinset).card - 1 := by
          rw [List.toFinset_cons, Finset.sdiff_insert, Finset.card_erase_of_mem htE]
        have hpos : 1 ≤ (E \ ec.toFinset).card := Finset.card_pos.mpr ⟨t, htE⟩
        simp only [hcard, List.length_cons]
        omega
    | some c =>
      simp only [epsStep]
      exact ih ec stack (fun x hx => hE x (List.mem_cons_of_mem _ hx))

theorem mem_epsTargetsL (tr : Transitions) (s : State) (pairs : TransList) (x : State)
    (hg : getTrans tr s = some pairs) (hx : ((none : Label), x) ∈ pairs) :
    x ∈ epsTargetsL tr := by
  have hm := getTrans_mem tr s pairs hg
  unfold epsTargetsL
  rw [List.mem_flatMap]
  refine ⟨(s, pairs), hm, ?_⟩
  rw [List.mem_filterMap]
  exact ⟨(none, x), hx, rfl⟩

theorem epsMeasure_step_le (tr : Transitions) (s : State) (pairs : TransList)
    (ec : StateSet) (rest : List State) (hg : getTrans tr s = some pairs) :
    epsMeasure tr (epsStep pairs ec rest).1 (epsStep pairs ec rest).2 ≤
      epsMeasure tr ec rest := by
  exact epsStep_measure pairs ec rest _ (fun x hx =>
    List.mem_toFinset.mpr (mem_epsTargetsL tr s pairs x hg hx))

theorem epsMeasure_cons (tr : Transitions) (ec : StateSet) (s : State)
    (rest : List State) :
    epsMeasure tr ec (s :: rest) = epsMeasure tr ec rest + 1 := by
  simp [epsMeasure]
  omega

theorem epsLoopF_grow (tr : Transitions) :
    ∀ f ec stack, epsMeasure tr ec stack < f →
      ∀ x ∈ ec, x ∈ epsLoopF tr f ec stack := by
  intro f
  induction f with
  | zero => intro ec stack h; omega
  | succ f ih =>
    intro ec stack h x hx
    cases stack with
    | nil => exact hx
    | cons s rest =>
      rw [epsMeasure_cons] at h
      simp only [epsLoopF]
      cases hg : getTrans tr s with
      | none => exact ih ec rest (by omega) x hx
      | some pairs =>
        refine ih _ _ ?_ x (epsStep_ec_sub _ _ _ _ hx)
        exact lt_of_le_of_lt (epsMeasure_step_le tr s pairs ec rest hg) (by omega)

theorem epsLoopF_min (tr : Transitions) :
    ∀ f ec stack, epsMeasure tr ec stack < f →
      ∀ T : Set State, (∀ x ∈ ec, x ∈ T) → (∀ x ∈ stack, x ∈ ec) →
        EpsClosedSet tr T → ∀ x ∈ epsLoopF tr f ec stack, x ∈ T := by
  intro f
  induction f with
  | zero => intro ec stack h; omega
  | succ f ih =>
    intro ec stack h T hecT hstec hT x hx
    cases stack with
    | nil => exact hecT x hx
    | cons s rest =>
      rw [epsMeasure_cons] at h
      simp only [epsLoopF] at hx
      cases hg : getTrans tr s with
      | none =>
        rw [hg] at hx
        exact ih ec rest (by omega) T hecT
          (fun y hy => hstec y (List.mem_cons_of_mem _ hy)) hT x hx
      | some pairs =>
        rw [hg] at hx
        have hsT : s ∈ T := hecT s (hstec s (List.mem_cons_self _ _))
        have hec2 : ∀ y ∈ (epsStep pairs ec rest).1, y ∈ T := by
          intro y hy
          rcases epsStep_ec_cases _ _ _ _ hy with h2 | h2
          · exact hecT y h2
          · exact hT s hsT y ⟨pairs, hg, h2⟩
        have hst2 : ∀ y ∈ (epsStep pairs ec rest).2, y ∈ (epsStep pairs ec rest).1 := by
          intro y hy
          rcases epsStep_stack_cases _ _ _ _ hy with h2 | h2
          · exact epsStep_ec_sub _ _ _ _ (hstec y (List.mem_cons_of_mem _ h2))
          · exact h2
        refine ih _ _ ?_ T hec2 hst2 hT x hx
        exact lt_of_le_of_lt (epsMeasure_step_le tr s pairs ec rest hg) (by omega)

theorem epsLoopF_closed (tr : Transitions) :
    ∀ f ec stack, epsMeasure tr ec stack < f →
      (∀ x ∈ stack, x ∈ ec) →
      (∀ u ∈ ec, u ∈ stack ∨ ∀ x, epsEdge tr u x → x ∈ ec) →
      ∀ u ∈ epsLoopF tr f ec stack, ∀ x, epsEdge tr u x →
        x ∈ epsLoopF tr f ec stack := by
  intro f
  induction f with
  | zero => intro ec stack h; omega
  | succ f ih =>
    intro ec stack h hstec hP u hu x hedge
    cases stack with
    | nil =>
      rcases hP u hu with h2 | h2
      · simp at h2
      · exact h2 x hedge
    | cons s rest =>
      rw [epsMeasure_cons] at h
      simp only [epsLoopF] at hu ⊢
      cases hg : getTrans tr s with
      | none =>
        rw [hg] at hu
        refine ih ec rest (by omega)
          (fun y hy => hstec y (List.mem_cons_of_mem _ hy)) ?_ u hu x hedge
        intro w hw
        rcases hP w hw with h2 | h2
        · rcases List.mem_cons.mp h2 with h3 | h3
          · subst h3
            refine Or.inr (fun y hy => ?_)
            obtain ⟨v, hv, _⟩ := hy
            rw [hg] at hv
            exact absurd hv (by simp)
          · exact Or.inl h3
        · exact Or.inr h2
      | some pairs =>
        rw [hg] at hu
        have hst2 : ∀ y ∈ (epsStep pairs ec rest).2, y ∈ (epsStep pairs ec rest).1 := by
          intro y hy
          rcases epsStep_stack_cases _ _ _ _ hy with h2 | h2
          · exact epsStep_ec_sub _ _ _ _ (hstec y (List.mem_cons_of_mem _ h2))
          · exact h2
        have hP2 : ∀ w ∈ (epsStep pairs ec rest).1,
            w ∈ (epsStep pairs ec rest).2 ∨
              ∀ y, epsEdge tr w y → y ∈ (epsStep pairs ec rest).1 := by
          intro w hw
          rcases epsStep_new_pushed _ _ _ _ hw with h2 | h2
          · rcases hP w h2 with h3 | h3
            · rcases List.mem_cons.mp h3 with h4 | h4
              · subst h4
                refine Or.inr (fun y hy => ?_)
                obtain ⟨v, hv, hmem⟩ := hy
                rw [hg] at hv
                injection hv with hv
                exact epsStep_target_mem _ _ _ _ (hv ▸ hmem)
              · exact Or.inl (epsStep_stack_sub _ _ _ _ h4)
            · exact Or.inr (fun y hy => epsStep_ec_sub _ _ _ _ (h3 y hy))
          · exact Or.inl h2
        refine ih _ _ ?_ hst2 hP2 u hu x hedge
        exact lt_of_le_of_lt (epsMeasure_step_le tr s pairs ec rest hg) (by omega)

theorem epsLoopF_stable (tr : Transitions) :
    ∀ f g ec stack, epsMeasure tr ec stack < f → epsMeasure tr ec stack < g →
      epsLoopF tr f ec stack = epsLoopF tr g ec stack := by
  intro f
  induction f with
  | zero => intro g ec stack h; omega
  | succ f ih =>
    intro g ec stack hf hg
    cases g with
    | zero => omega
    | succ g =>
      cases stack with
      | nil => rfl
      | cons s rest =>
        rw [epsMeasure_cons] at hf hg
        simp only [epsLoopF]
        cases hget : getTrans tr s with
        | none => exact ih g ec rest (by omega) (by omega)
        | some pairs =>
          refine ih g _ _ ?_ ?_ <;>
            exact lt_of_le_of_lt (epsMeasure_step_le tr s pairs ec rest hget) (by omega)

theorem eps_closure_measure_lt (nfa : Nfa) (S : StateSet) :
    epsMeasure nfa.transitions S S <
      (epsTargetsL nfa.transitions).length + S.length + 1 := by
  unfold epsMeasure
  have h1 : ((epsTargetsL nfa.transitions).toFinset \ S.toFinset).card ≤
      (epsTargetsL nfa.transitions).length :=
    le_trans (Finset.card_le_card (Finset.sdiff_subset)) (List.toFinset_card_le _)
  omega

theorem eps_closure_sub (nfa : Nfa) (S : StateSet) :
    ∀ x ∈ S, x ∈ nfa.eps_closure S :=
  epsLoopF_grow nfa.transitions _ S S (eps_closure_measure_lt nfa S)

theorem eps_closure_min (nfa : Nfa) (S : StateSet) (T : Set State)
    (hT : ∀ x ∈ S, x ∈ T) (hc : EpsClosedSet nfa.transitions T) :
    ∀ x ∈ nfa.eps_closure S, x ∈ T :=
  epsLoopF_min nfa.transitions _ S S (eps_closure_measure_lt nfa S) T hT
    (fun _ hx => hx) hc

theorem eps_closure_closed (nfa : Nfa) (S : StateSet) :
    ∀ u ∈ nfa.eps_closure S, ∀ x, epsEdge nfa.transitions u x →
      x ∈ nfa.eps_closure S :=
  epsLoopF_closed nfa.transitions _ S S (eps_closure_measure_lt nfa S)
    (fun _ hx => hx) (fun u hu => Or.inl hu)

theorem eps_closure_mem_iff (nfa : Nfa) (S : StateSet) (x : State) :
    x ∈ nfa.eps_closure S ↔
      ∃ s ∈ S, Relation.ReflTransGen (epsEdge nfa.transitions) s x := by
  constructor
  · intro hx
    refine eps_closure_min nfa S
      {y | ∃ s ∈ S, Relation.ReflTransGen (epsEdge nfa.transitions) s y}
      (fun s hs => ⟨s, hs, Relation.ReflTransGen.refl⟩) ?_ x hx
    rintro a ⟨s, hs, hreach⟩ b hedge
    exact ⟨s, hs, hreach.tail hedge⟩
  · rintro ⟨s, hs, hreach⟩
    induction hreach with
    | refl => exact eps_closure_sub nfa S s hs
    | tail h1 h2 ih => exact eps_closure_closed nfa S _ ih _ h2

/-! ## Membership characterizations of move and the simulation step -/

theorem insertS_mem (r : StateSet) (t x : State) :
    x ∈ insertS r t ↔ x ∈ r ∨ x = t := by
  unfold insertS
  by_cases h : t ∈ r
  · simp only [h, if_true]
    constructor
    · exact Or.inl
    · rintro (hx | rfl)
      · exact hx
      · exact h
  · simp only [h, if_false, List.mem_cons]
    tauto

theorem moveStep_mem (symbol : Char) (ps : TransList) (res : StateSet) (x : State) :
    x ∈ moveStep symbol ps res ↔ x ∈ res ∨ (some symbol, x) ∈ ps := by
  induction ps generalizing res with
  | nil => simp [moveStep]
  | cons q ps ih =>
    obtain ⟨l, t⟩ := q
    cases l with
    | none =>
      rw [show moveStep symbol (((none : Label), t) :: ps) res = moveStep symbol ps res
        from rfl, ih]
      simp
    | some c =>
      by_cases hc : c = symbol
      · rw [show moveStep symbol ((some c, t) :: ps) res =
            moveStep symbol ps (insertS res t) from by simp [moveStep, hc], ih,
          insertS_mem]
        subst hc
        simp only [List.mem_cons, Prod.mk.injEq, Option.some.injEq]
        constructor
        · rintro ((h | rfl) | h)
          · exact Or.inl h
          · exact Or.inr (Or.inl ⟨trivial, rfl⟩)
          · exact Or.inr (Or.inr h)
        · rintro (h | (⟨h1, rfl⟩ | h))
          · exact Or.inl (Or.inl h)
          · exact Or.inl (Or.inr rfl)
          · exact Or.inr h
      · rw [show moveStep symbol ((some c, t) :: ps) res = moveStep symbol ps res
          from by simp [moveStep, hc], ih]
        simp only [List.mem_cons, Prod.mk.injEq, Option.some.injEq]
        constructor
        · rintro (h | h)
          · exact Or.inl h
          · exact Or.inr (Or.inr h)
        · rintro (h | (⟨hcc, h2⟩ | h))
          · exact Or.inl h
          · exact absurd hcc.symm hc
          · exact Or.inr h

theorem get_move_go_mem (tr : Transitions) (c : Char) :
    ∀ (S : List State) (acc : StateSet) (x : State),
      x ∈ S.foldl (fun res f => match getTrans tr f with
          | some pairs => moveStep c pairs res
          | none => res) acc ↔ x ∈ acc ∨ ∃ s ∈ S, charEdge tr s c x := by
  intro S
  induction S with
  | nil => simp
  | cons s S ih =>
    intro acc x
    rw [List.foldl_cons]
    cases hg : getTrans tr s with
    | none =>
      rw [ih]
      simp only [List.mem_cons]
      constructor
      · rintro (h | ⟨s', hs', he⟩)
        · exact Or.inl h
        · exact Or.inr ⟨s', Or.inr hs', he⟩
      · rintro (h | ⟨s', (rfl | hs'), he⟩)
        · exact Or.inl h
        · obtain ⟨v, hv, -⟩ := he
          rw [hg] at hv
          cases hv
        · exact Or.inr ⟨s', hs', he⟩
    | some pairs =>
      rw [ih, moveStep_mem]
      simp only [List.mem_cons]
      constructor
      · rintro ((h | h) | ⟨s', hs', he⟩)
        · exact Or.inl h
        · exact Or.inr ⟨s, Or.inl rfl, pairs, hg, h⟩
        · exact Or.inr ⟨s', Or.inr hs', he⟩
      · rintro (h | ⟨s', (rfl | hs'), he⟩)
        · exact Or.inl (Or.inl h)
        · obtain ⟨v, hv, hm⟩ := he
          rw [hg] at hv
          injection hv with hv
          exact Or.inl (Or.inr (hv ▸ hm))
        · exact Or.inr ⟨s', hs', he⟩

theorem get_move_mem (nfa : Nfa) (S : StateSet) (c : Char) (x : State) :
    x ∈ nfa.get_move S c ↔ ∃ s ∈ S, charEdge nfa.transitions s c x := by
  rw [show nfa.get_move S c = S.foldl (fun res f => match getTrans nfa.transitions f with
      | some pairs => moveStep c pairs res
      | none => res) [] from rfl, get_move_go_mem]
  simp

theorem simStep_mem (nfa : Nfa) (S : StateSet) (c : Char) (x : State) :
    x ∈ simStep nfa S c ↔
      ∃ s ∈ S, ∃ t, charEdge nfa.transitions s c t ∧
        Relation.ReflTransGen (epsEdge nfa.transitions) t x := by
  unfold simStep
  rw [eps_closure_mem_iff]
  constructor
  · rintro ⟨t, ht, hreach⟩
    obtain ⟨s, hs, he⟩ := (get_move_mem nfa S c t).mp ht
    exact ⟨s, hs, t, he, hreach⟩
  · rintro ⟨s, hs, t, he, hreach⟩
    exact ⟨t, (get_move_mem nfa S c t).mpr ⟨s, hs, he⟩, hreach⟩

theorem simFold_ext (nfa : Nfa) :
    ∀ (l : List Char) (S1 S2 : StateSet), (∀ x, x ∈ S1 ↔ x ∈ S2) →
      ∀ x, x ∈ l.foldl (simStep nfa) S1 ↔ x ∈ l.foldl (simStep nfa) S2 := by
  intro l
  induction l with
  | nil => exact fun S1 S2 h => h
  | cons c l ih =>
    intro S1 S2 h x
    rw [List.foldl_cons, List.foldl_cons]
    refine ih _ _ (fun y => ?_) x
    rw [simStep_mem, simStep_mem]
    constructor
    · rintro ⟨s, hs, t, he, hr⟩
      exact ⟨s, (h s).mp hs, t, he, hr⟩
    · rintro ⟨s, hs, t, he, hr⟩
      exact ⟨s, (h s).mpr hs, t, he, hr⟩

theorem simulate_eq_decide (nfa : Nfa) (input : String) :
    nfa.simulate input =
      decide (nfa.accept ∈ input.data.foldl (simStep nfa)
        (nfa.eps_closure [nfa.start])) := rfl

/-- **C5**: for every automaton and every seed set of states, the
worklist computation of the epsilon closure terminates — any fuel
exceeding the decreasing measure (states not yet in the result plus
worklist length) makes the loop run to completion and yields the very
result `eps_closure` returns, which is possible only because a state
already in the result is never pushed again — and the returned set is
the smallest superset of `S` closed under epsilon transitions: it
contains `S`, it is epsilon-closed, and it is contained in every
epsilon-closed superset of `S`. -/
theorem eps_closure_is_least_closed_superset (nfa : Nfa) (S : StateSet) :
    (∀ f, epsMeasure nfa.transitions S S < f →
        epsLoopF nfa.transitions f S S = nfa.eps_closure S) ∧
    (∀ x ∈ S, x ∈ nfa.eps_closure S) ∧
    EpsClosedSet nfa.transitions {x | x ∈ nfa.eps_closure S} ∧
    (∀ T : Set State, (∀ x ∈ S, x ∈ T) → EpsClosedSet nfa.transitions T →
        ∀ x ∈ nfa.eps_closure S, x ∈ T) := by
  refine ⟨?_, eps_closure_sub nfa S, ?_, fun T hT hc => eps_closure_min nfa S T hT hc⟩
  · intro f hf
    exact epsLoopF_stable _ f _ S S hf (eps_closure_measure_lt nfa S)
  · intro a ha b hb
    exact eps_closure_closed nfa S a ha b hb

/-- Witness for `eps_closure_is_least_closed_superset` at a concrete
automaton with an epsilon cycle (the one `a*` compiles to) and a
concrete fuel above the measure. -/
theorem eps_closure_is_least_closed_superset_witness :
    epsMeasure [(0, [(some 'a', 1)]), (2, [((none : Label), 0), (none, 3)]),
        (1, [(none, 0), (none, 3)])] [2] [2] < 4 ∧
    epsLoopF [(0, [(some 'a', 1)]), (2, [((none : Label), 0), (none, 3)]),
        (1, [(none, 0), (none, 3)])] 4 [2] [2] =
      (Nfa.mk 2 3 [(0, [(some 'a', 1)]), (2, [((none : Label), 0), (none, 3)]),
        (1, [(none, 0), (none, 3)])]).eps_closure [2] :=
  ⟨by decide,
    (eps_closure_is_least_closed_superset
      (Nfa.mk 2 3 [(0, [(some 'a', 1)]), (2, [((none : Label), 0), (none, 3)]),
        (1, [(none, 0), (none, 3)])]) [2]).1 4 (by decide)⟩

/-! ## The language of the automaton compiled from the pattern `a*` -/

theorem starA_get (s : State) :
    getTrans starA.transitions s =
      if 0 = s then some [(some 'a', 1)]
      else if 2 = s then some [((none : Label), 0), (none, 3)]
      else if 1 = s then some [((none : Label), 0), (none, 3)]
      else none := by
  show getTrans [(0, [(some 'a', 1)]), (2, [((none : Label), 0), (none, 3)]),
    (1, [((none : Label), 0), (none, 3)])] s = _
  rw [getTrans_cons, getTrans_cons, getTrans_cons]
  rfl

theorem starA_charEdge (s : State) (c : Char) (x : State) :
    charEdge starA.transitions s c x ↔ s = 0 ∧ c = 'a' ∧ x = 1 := by
  unfold charEdge
  rw [starA_get]
  rcases eq_or_ne s 0 with rfl | h0
  · rw [if_pos (rfl : (0 : State) = 0)]
    constructor
    · rintro ⟨v, hv, hm⟩
      injection hv with hv
      subst hv
      rcases List.mem_cons.mp hm with h | h
      · injection h with h1 h2
        injection h1 with h1
        exact ⟨rfl, h1, h2⟩
      · simp at h
    · rintro ⟨-, rfl, rfl⟩
      exact ⟨_, rfl, List.mem_cons_self _ _⟩
  · rw [if_neg (fun hc : (0 : State) = s => h0 hc.symm)]
    rcases eq_or_ne s 2 with rfl | h2
    · rw [if_pos (rfl : (2 : State) = 2)]
      constructor
      · rintro ⟨v, hv, hm⟩
        injection hv with hv
        subst hv
        simp at hm
      · rintro ⟨h, -⟩
        exact absurd h (by decide)
    · rw [if_neg (fun hc : (2 : State) = s => h2 hc.symm)]
      rcases eq_or_ne s 1 with rfl | h1
      · rw [if_pos (rfl : (1 : State) = 1)]
        constructor
        · rintro ⟨v, hv, hm⟩
          injection hv with hv
          subst hv
          simp at hm
        · rintro ⟨h, -⟩
          exact absurd h (by decide)
      · rw [if_neg (fun hc : (1 : State) = s => h1 hc.symm)]
        constructor
        · rintro ⟨v, hv, -⟩
          cases hv
        · rintro ⟨rfl, -⟩
          exact absurd rfl h0

theorem starA_epsEdge (s x : State) :
    epsEdge starA.transitions s x ↔ (s = 1 ∨ s = 2) ∧ (x = 0 ∨ x = 3) := by
  unfold epsEdge
  rw [starA_get]
  rcases eq_or_ne s 0 with rfl | h0
  · rw [if_pos (rfl : (0 : State) = 0)]
    constructor
    · rintro ⟨v, hv, hm⟩
      injection hv with hv
      subst hv
      simp at hm
    · rintro ⟨h, -⟩
      rcases h with h | h <;> exact absurd h (by decide)
  · rw [if_neg (fun hc : (0 : State) = s => h0 hc.symm)]
    rcases eq_or_ne s 2 with rfl | h2
    · rw [if_pos (rfl : (2 : State) = 2)]
      constructor
      · rintro ⟨v, hv, hm⟩
        injection hv with hv
        subst hv
        rcases List.mem_cons.mp hm with h | h
        · injection h with h1 h2
          exact ⟨Or.inr rfl, Or.inl h2⟩
        · rcases List.mem_cons.mp h with h | h
          · injection h with h1 h2
            exact ⟨Or.inr rfl, Or.inr h2⟩
          · simp at h
      · rintro ⟨-, (rfl | rfl)⟩
        · exact ⟨_, rfl, List.mem_cons_self _ _⟩
        · exact ⟨_, rfl, List.mem_cons_of_mem _ (List.mem_cons_self _ _)⟩
    · rw [if_neg (fun hc : (2 : State) = s => h2 hc.symm)]
      rcases eq_or_ne s 1 with rfl | h1
      · rw [if_pos (rfl : (1 : State) = 1)]
        constructor
        · rintro ⟨v, hv, hm⟩
          injection hv with hv
          subst hv
          rcases List.mem_cons.mp hm with h | h
          · injection h with h1 h2
            exact ⟨Or.inl rfl, Or.inl h2⟩
          · rcases List.mem_cons.mp h with h | h
            · injection h with h1 h2
              exact ⟨Or.inl rfl, Or.inr h2⟩
            · simp at h
        · rintro ⟨-, (rfl | rfl)⟩
          · exact ⟨_, rfl, List.mem_cons_self _ _⟩
          · exact ⟨_, rfl, List.mem_cons_of_mem _ (List.mem_cons_self _ _)⟩
      · rw [if_neg (fun hc : (1 : State) = s => h1 hc.symm)]
        constructor
        · rintro ⟨v, hv, -⟩
          cases hv
        · rintro ⟨(rfl | rfl), -⟩
          · exact absurd rfl h1
          · exact absurd rfl h2

theorem starA_reach (a x : State) :
    Relation.ReflTransGen (epsEdge starA.transitions) a x ↔
      x = a ∨ ((a = 1 ∨ a = 2) ∧ (x = 0 ∨ x = 3)) := by
  constructor
  · intro h
    rcases h.cases_head with rfl | ⟨b, hab, hbx⟩
    · exact Or.inl rfl
    · obtain ⟨ha, hb⟩ := (starA_epsEdge _ _).mp hab
      have hx : x = b := by
        rcases hbx.cases_head with rfl | ⟨d, hbd, hdx⟩
        · rfl
        · obtain ⟨hb', -⟩ := (starA_epsEdge _ _).mp hbd
          rcases hb with rfl | rfl <;> rcases hb' with h | h <;> exact absurd h (by decide)
      exact Or.inr ⟨ha, hx ▸ hb⟩
  · rintro (rfl | ⟨ha, hx⟩)
    · exact Relation.ReflTransGen.refl
    · exact Relation.ReflTransGen.single ((starA_epsEdge _ _).mpr ⟨ha, hx⟩)

theorem starA_init (x : State) :
    x ∈ starA.eps_closure [2] ↔ x = 2 ∨ x = 0 ∨ x = 3 := by
  rw [eps_closure_mem_iff]
  constructor
  · rintro ⟨s, hs, hreach⟩
    rcases List.mem_singleton.mp hs with rfl
    rcases (starA_reach _ _).mp hreach with rfl | ⟨-, hx⟩
    · exact Or.inl rfl
    · rcases hx with rfl | rfl
      · exact Or.inr (Or.inl rfl)
      · exact Or.inr (Or.inr rfl)
  · rintro (rfl | rfl | rfl)
    · exact ⟨2, List.mem_singleton.mpr rfl, Relation.ReflTransGen.refl⟩
    · exact ⟨2, List.mem_singleton.mpr rfl,
        (starA_reach _ _).mpr (Or.inr ⟨Or.inr rfl, Or.inl rfl⟩)⟩
    · exact ⟨2, List.mem_singleton.mpr rfl,
        (starA_reach _ _).mpr (Or.inr ⟨Or.inr rfl, Or.inr rfl⟩)⟩

theorem starA_step_live (S : StateSet) (h0 : (0 : State) ∈ S) (x : State) :
    x ∈ simStep starA S 'a' ↔ x = 1 ∨ x = 0 ∨ x = 3 := by
  rw [simStep_mem]
  constructor
  · rintro ⟨s, hs, t, he, hr⟩
    obtain ⟨rfl, -, rfl⟩ := (starA_charEdge _ _ _).mp he
    rcases (starA_reach _ _).mp hr with rfl | ⟨-, hx⟩
    · exact Or.inl rfl
    · rcases hx with rfl | rfl
      · exact Or.inr (Or.inl rfl)
      · exact Or.inr (Or.inr rfl)
  · have hedge : charEdge starA.transitions 0 'a' 1 :=
      (starA_charEdge _ _ _).mpr ⟨rfl, rfl, rfl⟩
    rintro (rfl | rfl | rfl)
    · exact ⟨0, h0, 1, hedge, Relation.ReflTransGen.refl⟩
    · exact ⟨0, h0, 1, hedge, (starA_reach _ _).mpr (Or.inr ⟨Or.inl rfl, Or.inl rfl⟩)⟩
    · exact ⟨0, h0, 1, hedge, (starA_reach _ _).mpr (Or.inr ⟨Or.inl rfl, Or.inr rfl⟩)⟩

theorem starA_step_dead (S : StateSet) (c : Char) (hc : c ≠ 'a') (x : State) :
    x ∉ simStep starA S c := by
  rw [simStep_mem]
  rintro ⟨s, hs, t, he, hr⟩
  exact hc ((starA_charEdge _ _ _).mp he).2.1

theorem starA_step_empty (S : StateSet) (hS : ∀ y, y ∉ S) (c : Char) (x : State) :
    x ∉ simStep starA S c := by
  rw [simStep_mem]
  rintro ⟨s, hs, -⟩
  exact hS s hs

theorem starA_fold_dead (l : List Char) :
    ∀ S : StateSet, (∀ y, y ∉ S) → (3 : State) ∉ l.foldl (simStep starA) S := by
  induction l with
  | nil => exact fun S hS => hS 3
  | cons c l ih =>
    intro S hS
    rw [List.foldl_cons]
    exact ih _ (fun y => starA_step_empty S hS c y)

theorem starA_fold (l : List Char) :
    ∀ S : StateSet,
      ((∀ y, y ∈ S ↔ y = 2 ∨ y = 0 ∨ y = 3) ∨ (∀ y, y ∈ S ↔ y = 1 ∨ y = 0 ∨ y = 3)) →
      ((3 : State) ∈ l.foldl (simStep starA) S ↔ ∀ c ∈ l, c = 'a') := by
  induction l with
  | nil =>
    intro S hS
    simp only [List.foldl_nil, List.not_mem_nil]
    rcases hS with h | h <;>
      simp [h 3]
  | cons c l ih =>
    intro S hS
    rw [List.foldl_cons]
    by_cases hc : c = 'a'
    · subst hc
      have h0 : (0 : State) ∈ S := by
        rcases hS with h | h
        · exact (h 0).mpr (Or.inr (Or.inl rfl))
        · exact (h 0).mpr (Or.inr (Or.inl rfl))
      rw [ih _ (Or.inr (fun y => starA_step_live S h0 y))]
      simp
    · constructor
      · intro hmem
        exact absurd hmem (starA_fold_dead l _ (fun y => starA_step_dead S c hc y))
      · intro hall
        exact absurd (hall c (List.mem_cons_self _ _)) hc

/-- **C4**: the automaton compiled from the pattern `a*` accepts exactly
the strings consisting of zero or more `a` characters: for every input
string, simulation succeeds if and only if every character of the input
is `a`. -/
theorem star_a_language (s : String) :
    (regex_to_nfa "a*").map (fun nfa => nfa.simulate s) =
      Except.ok (decide (∀ c ∈ s.data, c = 'a')) := by
  have hc : regex_to_nfa "a*" = Except.ok starA := rfl
  rw [hc]
  refine congrArg Except.ok ?_
  show starA.simulate s = _
  rw [simulate_eq_decide, decide_eq_decide]
  exact starA_fold s.data _ (Or.inl (fun y => starA_init y))

/-! ## Error cases, parenthesization, determinism, and `regex_match` -/

/-- **C3**: the four error cases of compilation.  The spec names the
error kinds `EmptyExpression`, `UnclosedGroup`, `TrailingInput` and
`UnexpectedToken`; the source represents each kind by a fixed string
(the wordings the spec itself lists in section 4.1: "expected
expression", "expected ')'", "unexpected trailing characters",
"unexpected token").  Each of the four patterns compiles to exactly the
named error and no automaton. -/
theorem compile_error_cases :
    regex_to_nfa "" = Except.error "Expected expression" ∧
    regex_to_nfa "(a" = Except.error "Expected ')'" ∧
    regex_to_nfa "a)" = Except.error "Unexpected trailing characters" ∧
    regex_to_nfa "*a" = Except.error "Unexpected token" :=
  ⟨rfl, rfl, rfl, rfl⟩

/-- **C7**: `compile("(ab)")` and `compile("ab")` accept the same
language; in fact the two compilations return the very same automaton,
because parentheses only steer the parser and allocate no states. -/
theorem paren_transparent (s : String) :
    (regex_to_nfa "(ab)").map (fun nfa => nfa.simulate s) =
      (regex_to_nfa "ab").map (fun nfa => nfa.simulate s) := by
  have h1 : regex_to_nfa "(ab)" =
      Except.ok (Nfa.mk 0 3 [(0, [(some 'a', 1)]), (2, [(some 'b', 3)]),
        (1, [((none : Label), 2)])]) := rfl
  have h2 : regex_to_nfa "ab" =
      Except.ok (Nfa.mk 0 3 [(0, [(some 'a', 1)]), (2, [(some 'b', 3)]),
        (1, [((none : Label), 2)])]) := rfl
  rw [h1, h2]

/-- **C8**: compilation is deterministic.  In this embedding `compile`
is a pure function of the pattern (the fresh-state counter is part of
the per-call parser state, exactly as in the source, where it is a field
of the `Parser` value created inside `regex_to_nfa`), so two compilations
of the same pattern yield automata with identical observable behaviour. -/
theorem compile_deterministic (p s : String) (n1 n2 : Nfa)
    (h1 : regex_to_nfa p = Except.ok n1) (h2 : regex_to_nfa p = Except.ok n2) :
    n1.simulate s = n2.simulate s := by
  rw [h1] at h2
  injection h2 with h2
  rw [h2]

/-- Witness for `compile_deterministic` at the pattern `"a"`. -/
theorem compile_deterministic_witness :
    (Nfa.mk 0 1 [(0, [(some 'a', 1)])]).simulate "a" =
      (Nfa.mk 0 1 [(0, [(some 'a', 1)])]).simulate "a" :=
  compile_deterministic "a" "a" _ _ rfl rfl

/-- **C1** as stated is false at the empty pattern: compilation fails
with the `Expected expression` error, but `regex_match` does not return
a `Result` carrying that error — the source calls
`regex_to_nfa(pattern).unwrap()`, which panics (modelled by `none`). -/
theorem regex_match_panics_on_compile_error :
    regex_to_nfa "" = Except.error "Expected expression" ∧
      regex_match "" "" = none :=
  ⟨rfl, rfl⟩

/-- **C1 (amended)**: `regex_match p s` returns the simulator's boolean
verdict when `compile(p)` succeeds, and panics — it unwraps the error,
modelled by `none` — when `compile(p)` fails; it returns a bare boolean
rather than a `Result` carrying the compile error. -/
theorem regex_match_spec (p s : String) :
    (∀ nfa, regex_to_nfa p = Except.ok nfa →
      regex_match p s = some (nfa.simulate s)) ∧
    (∀ e, regex_to_nfa p = Except.error e → regex_match p s = none) := by
  constructor
  · intro nfa h
    unfold regex_match
    rw [h]
  · intro e h
    unfold regex_match
    rw [h]

/-- Witness for `regex_match_spec`: a pattern that compiles and one that
does not. -/
theorem regex_match_spec_witness :
    regex_match "a" "a" = some ((Nfa.mk 0 1 [(0, [(some 'a', 1)])]).simulate "a") ∧
    regex_match "*" "" = none :=
  ⟨(regex_match_spec "a" "a").1 _ rfl,
    (regex_match_spec "*" "").2 "Unexpected token" rfl⟩

/-! ## State windows: every fragment's states come from the counter -/

theorem mem_insertTrans (t : Transitions) (s : State) (v : TransList)
    (e : State × TransList) (he : e ∈ insertTrans t s v) : e ∈ t ∨ e = (s, v) := by
  rw [insertTrans_eq] at he
  by_cases hs : s ∈ keysTrans t
  · rw [if_pos hs] at he
    obtain ⟨o, ho, rfl⟩ := List.mem_map.mp he
    by_cases h : o.1 = s
    · exact Or.inr (by rw [if_pos h])
    · exact Or.inl (by rw [if_neg h]; exact ho)
  · rw [if_neg hs] at he
    rcases List.mem_append.mp he with he | he
    · exact Or.inl he
    · exact Or.inr (List.mem_singleton.mp he)

theorem mem_extendTrans (t1 t2 : Transitions) (e : State × TransList)
    (he : e ∈ extendTrans t1 t2) : e ∈ t1 ∨ e ∈ t2 := by
  induction t2 generalizing t1 with
  | nil => exact Or.inl he
  | cons p t2' ih =>
    rcases ih (insertTrans t1 p.1 p.2) he with h | h
    · rcases mem_insertTrans _ _ _ _ h with h | h
      · exact Or.inl h
      · refine Or.inr (List.mem_cons.mpr (Or.inl ?_))
        rw [h]
    · exact Or.inr (List.mem_cons_of_mem _ h)

theorem mem_addTrans (t : Transitions) (f : State) (l : Label) (d : State)
    (e : State × TransList) (he : e ∈ addTrans t f l d) :
    e ∈ t ∨ e = (f, (getTrans t f).getD [] ++ [(l, d)]) := by
  unfold addTrans at he
  cases hg : getTrans t f with
  | some v =>
    rw [hg] at he
    rcases mem_insertTrans _ _ _ _ he with h | h
    · exact Or.inl h
    · refine Or.inr ?_
      rw [h]
      rfl
  | none =>
    rw [hg] at he
    rcases List.mem_append.mp he with h | h
    · exact Or.inl h
    · refine Or.inr ?_
      rw [List.mem_singleton.mp h]
      rfl

theorem addTrans_window (t : Transitions) (a b : Nat) (f : State) (l : Label) (d : State)
    (ht : ∀ e ∈ t, inWindow a b e.1 ∧ ∀ q ∈ e.2, inWindow a b q.2)
    (hf : inWindow a b f) (hd : inWindow a b d) :
    ∀ e ∈ addTrans t f l d, inWindow a b e.1 ∧ ∀ q ∈ e.2, inWindow a b q.2 := by
  intro e he
  rcases mem_addTrans _ _ _ _ _ he with he | rfl
  · exact ht e he
  · refine ⟨hf, ?_⟩
    intro q hq
    rcases List.mem_append.mp hq with hq | hq
    · cases hg : getTrans t f with
      | none =>
        rw [hg] at hq
        simp at hq
      | some v =>
        rw [hg] at hq
        exact (ht _ (getTrans_mem _ _ _ hg)).2 q hq
    · rcases List.mem_singleton.mp hq with rfl
      exact hd

theorem extendTrans_window (t1 t2 : Transitions) (a b : Nat)
    (h1 : ∀ e ∈ t1, inWindow a b e.1 ∧ ∀ q ∈ e.2, inWindow a b q.2)
    (h2 : ∀ e ∈ t2, inWindow a b e.1 ∧ ∀ q ∈ e.2, inWindow a b q.2) :
    ∀ e ∈ extendTrans t1 t2, inWindow a b e.1 ∧ ∀ q ∈ e.2, inWindow a b q.2 :=
  fun e he => (mem_extendTrans _ _ _ he).elim (h1 e) (h2 e)

theorem getTrans_none_of_window (t : Transitions) (a b x : Nat)
    (hw : ∀ e ∈ t, inWindow a b e.1 ∧ ∀ q ∈ e.2, inWindow a b q.2)
    (hx : b ≤ x) : getTrans t x = none := by
  rw [getTrans_eq_none_iff]
  intro hk
  obtain ⟨e, he, he1⟩ := List.mem_map.mp hk
  have := (hw e he).1
  rw [he1] at this
  exact absurd this.2 (by omega)

theorem GoodNfa.mono (nfa : Nfa) (a b a' b' : Nat) (h : GoodNfa nfa a b)
    (ha : a' ≤ a) (hb : b ≤ b') : GoodNfa nfa a' b' := by
  obtain ⟨⟨⟨hs1, hs2⟩, ⟨hc1, hc2⟩, ht⟩, hnd, hget⟩ := h
  refine ⟨⟨⟨by omega, by omega⟩, ⟨by omega, by omega⟩, ?_⟩, hnd, hget⟩
  intro e he
  obtain ⟨⟨h11, h12⟩, h2⟩ := ht e he
  refine ⟨⟨by omega, by omega⟩, ?_⟩
  intro q hq
  obtain ⟨h21, h22⟩ := h2 q hq
  exact ⟨by omega, by omega⟩

theorem GoodNfa.lt (nfa : Nfa) (a b : Nat) (h : GoodNfa nfa a b) : a < b := by
  obtain ⟨⟨⟨h1, h2⟩, -, -⟩, -, -⟩ := h
  omega

theorem build_char_eq (st : PState) (c : Char) :
    build_char st c =
      (Nfa.mk st.next (st.next + 1) [(st.next, [(some c, st.next + 1)])],
        { st with next := st.next + 2 }) := rfl

theorem build_char_good (st : PState) (c : Char) :
    GoodNfa (build_char st c).1 st.next (st.next + 2) := by
  rw [build_char_eq]
  unfold GoodNfa NfaWindow inWindow
  dsimp only
  refine ⟨⟨⟨le_refl _, by omega⟩, ⟨by omega, by omega⟩, ?_⟩, ?_, ?_⟩
  · intro e he
    rcases List.mem_singleton.mp he with rfl
    dsimp only
    refine ⟨⟨le_refl _, by omega⟩, ?_⟩
    intro q hq
    rcases List.mem_singleton.mp hq with rfl
    exact ⟨by omega, by omega⟩
  · simp [keysTrans]
  · rw [getTrans_eq_none_iff]
    intro hk
    simp [keysTrans] at hk

theorem build_concat_eq (L R : Nfa) :
    build_concat L R = Nfa.mk L.start R.accept
      (addTrans (extendTrans L.transitions R.transitions) L.accept none R.start) := rfl

theorem build_concat_good (L R : Nfa) (a b c : Nat)
    (hL : GoodNfa L a b) (hR : GoodNfa R b c) :
    GoodNfa (build_concat L R) a c := by
  obtain ⟨⟨⟨hLs1, hLs2⟩, ⟨hLa1, hLa2⟩, hLt⟩, hLnd, hLacc⟩ := hL
  obtain ⟨⟨⟨hRs1, hRs2⟩, ⟨hRa1, hRa2⟩, hRt⟩, hRnd, hRacc⟩ := hR
  have hLt' : ∀ e ∈ L.transitions, inWindow a c e.1 ∧ ∀ q ∈ e.2, inWindow a c q.2 := by
    intro e he
    obtain ⟨⟨h11, h12⟩, h2⟩ := hLt e he
    refine ⟨⟨by omega, by omega⟩, ?_⟩
    intro q hq
    obtain ⟨h21, h22⟩ := h2 q hq
    exact ⟨by omega, by omega⟩
  have hRt' : ∀ e ∈ R.transitions, inWindow a c e.1 ∧ ∀ q ∈ e.2, inWindow a c q.2 := by
    intro e he
    obtain ⟨⟨h11, h12⟩, h2⟩ := hRt e he
    refine ⟨⟨by omega, by omega⟩, ?_⟩
    intro q hq
    obtain ⟨h21, h22⟩ := h2 q hq
    exact ⟨by omega, by omega⟩
  have hext := extendTrans_window L.transitions R.transitions a c hLt' hRt'
  rw [build_concat_eq]
  unfold GoodNfa NfaWindow inWindow
  dsimp only
  refine ⟨⟨⟨by omega, by omega⟩, ⟨by omega, by omega⟩, ?_⟩, ?_, ?_⟩
  · have hf : inWindow a c L.accept := ⟨by omega, by omega⟩
    have hd : inWindow a c R.start := ⟨by omega, by omega⟩
    exact addTrans_window _ a c _ none _ hext hf hd
  · exact keysTrans_addTrans_nodup _ _ _ _ (keysTrans_extendTrans_nodup _ _ hLnd)
  · have hne : ¬(R.accept = L.accept) := Nat.ne_of_gt (lt_of_lt_of_le hLa2 hRa1)
    show getTrans (addTrans (extendTrans L.transitions R.transitions)
      L.accept none R.start) R.accept = none
    rw [getTrans_addTrans, if_neg hne]
    rw [getTrans_extendTrans _ _ hRnd, hRacc]
    exact getTrans_none_of_window L.transitions a b R.accept hLt hRa1

theorem transWindow_mono (t : Transitions) (a b a' b' : Nat)
    (h : ∀ e ∈ t, inWindow a b e.1 ∧ ∀ q ∈ e.2, inWindow a b q.2)
    (ha : a' ≤ a) (hb : b ≤ b') :
    ∀ e ∈ t, inWindow a' b' e.1 ∧ ∀ q ∈ e.2, inWindow a' b' q.2 := by
  intro e he
  obtain ⟨⟨h11, h12⟩, h2⟩ := h e he
  refine ⟨⟨by omega, by omega⟩, ?_⟩
  intro q hq
  obtain ⟨h21, h22⟩ := h2 q hq
  exact ⟨by omega, by omega⟩

theorem build_alt_eq (st : PState) (L R : Nfa) :
    build_alt st L R =
      (Nfa.mk st.next (st.next + 1)
        (addTrans (addTrans (addTrans (addTrans
          (extendTrans L.transitions R.transitions)
          st.next none L.start) st.next none R.start)
          L.accept none (st.next + 1)) R.accept none (st.next + 1)),
        { st with next := st.next + 2 }) := rfl

theorem build_alt_good (st : PState) (L R : Nfa) (a b : Nat)
    (hL : GoodNfa L a b) (hR : GoodNfa R b st.next) :
    GoodNfa (build_alt st L R).1 a (st.next + 2) := by
  have hab : a < b := GoodNfa.lt _ _ _ hL
  have hbn : b < st.next := GoodNfa.lt _ _ _ hR
  obtain ⟨⟨⟨hLs1, hLs2⟩, ⟨hLa1, hLa2⟩, hLt⟩, hLnd, hLacc⟩ := hL
  obtain ⟨⟨⟨hRs1, hRs2⟩, ⟨hRa1, hRa2⟩, hRt⟩, hRnd, hRacc⟩ := hR
  have hLt' := transWindow_mono L.transitions a b a (st.next + 2) hLt (le_refl a) (by omega)
  have hRt' := transWindow_mono R.transitions b st.next a (st.next + 2) hRt
    (by omega) (by omega)
  have hext := extendTrans_window L.transitions R.transitions a (st.next + 2) hLt' hRt'
  have hwn : inWindow a (st.next + 2) st.next := ⟨by omega, by omega⟩
  have hwn1 : inWindow a (st.next + 2) (st.next + 1) := ⟨by omega, by omega⟩
  have hwLs : inWindow a (st.next + 2) L.start := ⟨by omega, by omega⟩
  have hwRs : inWindow a (st.next + 2) R.start := ⟨by omega, by omega⟩
  have hwLa : inWindow a (st.next + 2) L.accept := ⟨by omega, by omega⟩
  have hwRa : inWindow a (st.next + 2) R.accept := ⟨by omega, by omega⟩
  have hT1 := addTrans_window _ a (st.next + 2) st.next none L.start hext hwn hwLs
  have hT2 := addTrans_window _ a (st.next + 2) st.next none R.start hT1 hwn hwRs
  have hT3 := addTrans_window _ a (st.next + 2) L.accept none (st.next + 1) hT2 hwLa hwn1
  have hT4 := addTrans_window _ a (st.next + 2) R.accept none (st.next + 1) hT3 hwRa hwn1
  have hne2 : ¬(st.next + 1 = st.next) := Nat.ne_of_gt (Nat.lt_succ_self _)
  have hne3 : ¬(st.next + 1 = L.accept) :=
    Nat.ne_of_gt (Nat.lt_succ_of_lt (lt_trans hLa2 hbn))
  have hne4 : ¬(st.next + 1 = R.accept) := Nat.ne_of_gt (Nat.lt_succ_of_lt hRa2)
  have hR1none : getTrans R.transitions (st.next + 1) = none :=
    getTrans_none_of_window R.transitions b st.next (st.next + 1) hRt (Nat.le_succ _)
  have hL1none : getTrans L.transitions (st.next + 1) = none :=
    getTrans_none_of_window L.transitions a b (st.next + 1) hLt
      (le_of_lt (Nat.lt_succ_of_lt hbn))
  rw [build_alt_eq]
  unfold GoodNfa NfaWindow inWindow
  dsimp only
  refine ⟨⟨⟨by omega, by omega⟩, ⟨by omega, by omega⟩, hT4⟩, ?_, ?_⟩
  · exact keysTrans_addTrans_nodup _ _ _ _ (keysTrans_addTrans_nodup _ _ _ _
      (keysTrans_addTrans_nodup _ _ _ _ (keysTrans_addTrans_nodup _ _ _ _
        (keysTrans_extendTrans_nodup _ _ hLnd))))
  · show getTrans (addTrans (addTrans (addTrans (addTrans
        (extendTrans L.transitions R.transitions)
        st.next none L.start) st.next none R.start)
        L.accept none (st.next + 1)) R.accept none (st.next + 1)) (st.next + 1) = none
    rw [getTrans_addTrans, if_neg hne4, getTrans_addTrans, if_neg hne3,
        getTrans_addTrans, if_neg hne2, getTrans_addTrans, if_neg hne2,
        getTrans_extendTrans _ _ hRnd, hR1none]
    exact hL1none

theorem build_star_eq (st : PState) (X : Nfa) :
    build_star st X =
      (Nfa.mk st.next (st.next + 1)
        (addTrans (addTrans (addTrans (addTrans X.transitions
          st.next none X.start) st.next none (st.next + 1))
          X.accept none X.start) X.accept none (st.next + 1)),
        { st with next := st.next + 2 }) := rfl

theorem build_star_good (st : PState) (X : Nfa) (a : Nat)
    (hX : GoodNfa X a st.next) :
    GoodNfa (build_star st X).1 a (st.next + 2) := by
  have han : a < st.next := GoodNfa.lt _ _ _ hX
  obtain ⟨⟨⟨hXs1, hXs2⟩, ⟨hXa1, hXa2⟩, hXt⟩, hXnd, hXacc⟩ := hX
  have hXt' := transWindow_mono X.transitions a st.next a (st.next + 2) hXt
    (le_refl a) (by omega)
  have hwn : inWindow a (st.next + 2) st.next := ⟨by omega, by omega⟩
  have hwn1 : inWindow a (st.next + 2) (st.next + 1) := ⟨by omega, by omega⟩
  have hwXs : inWindow a (st.next + 2) X.start := ⟨by omega, by omega⟩
  have hwXa : inWindow a (st.next + 2) X.accept := ⟨by omega, by omega⟩
  have hT1 := addTrans_window _ a (st.next + 2) st.next none X.start hXt' hwn hwXs
  have hT2 := addTrans_window _ a (st.next + 2) st.next none (st.next + 1) hT1 hwn hwn1
  have hT3 := addTrans_window _ a (st.next + 2) X.accept none X.start hT2 hwXa hwXs
  have hT4 := addTrans_window _ a (st.next + 2) X.accept none (st.next + 1) hT3 hwXa hwn1
  have hne2 : ¬(st.next + 1 = st.next) := Nat.ne_of_gt (Nat.lt_succ_self _)
  have hne3 : ¬(st.next + 1 = X.accept) := Nat.ne_of_gt (Nat.lt_succ_of_lt hXa2)
  have hX1none : getTrans X.transitions (st.next + 1) = none :=
    getTrans_none_of_window X.transitions a st.next (st.next + 1) hXt (Nat.le_succ _)
  rw [build_star_eq]
  unfold GoodNfa NfaWindow inWindow
  dsimp only
  refine ⟨⟨⟨by omega, by omega⟩, ⟨by omega, by omega⟩, hT4⟩, ?_, ?_⟩
  · exact keysTrans_addTrans_nodup _ _ _ _ (keysTrans_addTrans_nodup _ _ _ _
      (keysTrans_addTrans_nodup _ _ _ _ (keysTrans_addTrans_nodup _ _ _ _ hXnd)))
  · show getTrans (addTrans (addTrans (addTrans (addTrans X.transitions
        st.next none X.start) st.next none (st.next + 1))
        X.accept none X.start) X.accept none (st.next + 1)) (st.next + 1) = none
    rw [getTrans_addTrans, if_neg hne3, getTrans_addTrans, if_neg hne3,
        getTrans_addTrans, if_neg hne2, getTrans_addTrans, if_neg hne2]
    exact hX1none

theorem consume_next (st : PState) : (consume st).2.next = st.next := by
  obtain ⟨rest, next⟩ := st
  cases rest <;> rfl

theorem eat_next (st : PState) (c : Char) : (eat st c).2.next = st.next := by
  unfold eat
  by_cases h : peek st = some c
  · rw [if_pos h]
    exact consume_next st
  · rw [if_neg h]

theorem build_char_next (st : PState) (c : Char) :
    (build_char st c).2 = { st with next := st.next + 2 } := rfl

theorem build_alt_next (st : PState) (L R : Nfa) :
    (build_alt st L R).2 = { st with next := st.next + 2 } := rfl

theorem build_star_next (st : PState) (X : Nfa) :
    (build_star st X).2 = { st with next := st.next + 2 } := rfl

theorem parse_concat_go_succ (f : Nat) (res : Option Nfa) (st : PState) :
    parse_concat_go (f + 1) res st = (match peek st with
      | some c =>
        if c = ')' ∨ c = '|' then concat_finish res st
        else
          match parse_rep f st with
          | Except.error e => Except.error e
          | Except.ok (rep, st1) =>
            match res with
            | some nfa0 => parse_concat_go f (some (build_concat nfa0 rep)) st1
            | none => parse_concat_go f (some rep) st1
      | none => concat_finish res st) := by
  cases res <;> rfl

/-- The compiler invariant, proved for all seven parsing functions at
once by induction on fuel: a successful parse returns a fragment all of
whose states were allocated by the fresh-state counter during that very
parse — they fill the window from the counter's value before the call to
its value after — with duplicate-free transition keys and no transition
out of the accept state. -/
theorem parse_good_all (f : Nat) :
    (∀ st nfa st', parse_regex f st = Except.ok (nfa, st') →
      st.next ≤ st'.next ∧ GoodNfa nfa st.next st'.next) ∧
    (∀ st nfa st', parse_alt f st = Except.ok (nfa, st') →
      st.next ≤ st'.next ∧ GoodNfa nfa st.next st'.next) ∧
    (∀ left st a nfa st', a ≤ st.next → GoodNfa left a st.next →
      parse_alt_go f left st = Except.ok (nfa, st') →
      st.next ≤ st'.next ∧ GoodNfa nfa a st'.next) ∧
    (∀ st nfa st', parse_concat f st = Except.ok (nfa, st') →
      st.next ≤ st'.next ∧ GoodNfa nfa st.next st'.next) ∧
    (∀ res st a nfa st', a ≤ st.next →
      (match res with
        | none => a = st.next
        | some acc => GoodNfa acc a st.next) →
      parse_concat_go f res st = Except.ok (nfa, st') →
      st.next ≤ st'.next ∧ GoodNfa nfa a st'.next) ∧
    (∀ st nfa st', parse_rep f st = Except.ok (nfa, st') →
      st.next ≤ st'.next ∧ GoodNfa nfa st.next st'.next) ∧
    (∀ st nfa st', parse_primary f st = Except.ok (nfa, st') →
      st.next ≤ st'.next ∧ GoodNfa nfa st.next st'.next) := by
  induction f with
  | zero =>
    refine ⟨?_, ?_, ?_, ?_, ?_, ?_, ?_⟩
    · intro st nfa st' h
      simp [parse_regex] at h
    · intro st nfa st' h
      simp [parse_alt] at h
    · intro left st a nfa st' h1 h2 h
      simp [parse_alt_go] at h
    · intro st nfa st' h
      simp [parse_concat] at h
    · intro res st a nfa st' h1 h2 h
      simp [parse_concat_go] at h
    · intro st nfa st' h
      simp [parse_rep] at h
    · intro st nfa st' h
      simp [parse_primary] at h
  | succ f ih =>
    obtain ⟨ihr, iha, ihag, ihc, ihcg, ihrep, ihp⟩ := ih
    refine ⟨?_, ?_, ?_, ?_, ?_, ?_, ?_⟩
    · intro st nfa st' h
      exact iha st nfa st' h
    · intro st nfa st' h
      rw [show parse_alt (f + 1) st = (match parse_concat f st with
          | Except.error e => Except.error e
          | Except.ok (left, st1) => parse_alt_go f left st1) from rfl] at h
      cases hc : parse_concat f st with
      | error e =>
        rw [hc] at h
        cases h
      | ok p =>
        obtain ⟨left, st1⟩ := p
        rw [hc] at h
        obtain ⟨h1, hg⟩ := ihc st left st1 hc
        obtain ⟨h2, hg2⟩ := ihag left st1 st.next nfa st' h1 hg h
        exact ⟨le_trans h1 h2, hg2⟩
    · intro left st a nfa st' ha hgood h
      rw [show parse_alt_go (f + 1) left st = (if (eat st '|').1 then
          match parse_concat f (eat st '|').2 with
          | Except.error er => Except.error er
          | Except.ok (right, st2) =>
            parse_alt_go f (build_alt st2 left right).1 (build_alt st2 left right).2
          else Except.ok (left, st)) from rfl] at h
      by_cases hb : (eat st '|').1 = true
      · rw [if_pos hb] at h
        cases hc : parse_concat f (eat st '|').2 with
        | error e =>
          rw [hc] at h
          cases h
        | ok p =>
          obtain ⟨right, st2⟩ := p
          rw [hc] at h
          obtain ⟨h1, hg1⟩ := ihc _ right st2 hc
          rw [eat_next] at h1 hg1
          have hgb := build_alt_good st2 left right a st.next hgood hg1
          have hb2 : (build_alt st2 left right).2.next = st2.next + 2 := by
            rw [build_alt_next]
          obtain ⟨h2, hg2⟩ := ihag (build_alt st2 left right).1
            (build_alt st2 left right).2 a nfa st' (by omega) (by rw [hb2]; exact hgb) h
          rw [hb2] at h2
          exact ⟨by omega, hg2⟩
      · rw [if_neg hb] at h
        injection h with h
        injection h with h1 h2
        subst h1
        subst h2
        exact ⟨le_refl _, hgood⟩
    · intro st nfa st' h
      exact ihcg none st st.next nfa st' (le_refl _) rfl h
    · intro res st a nfa st' ha hinv h
      rw [parse_concat_go_succ] at h
      have hfin : concat_finish res st = Except.ok (nfa, st') →
          st.next ≤ st'.next ∧ GoodNfa nfa a st'.next := by
        intro hf
        cases res with
        | none => cases hf
        | some acc =>
          injection hf with hf
          injection hf with hf1 hf2
          subst hf1
          subst hf2
          exact ⟨le_refl _, hinv⟩
      cases hp : peek st with
      | none =>
        rw [hp] at h
        exact hfin h
      | some c =>
        rw [hp] at h
        dsimp only at h
        by_cases hcb : c = ')' ∨ c = '|'
        · rw [if_pos hcb] at h
          exact hfin h
        · rw [if_neg hcb] at h
          cases hr : parse_rep f st with
          | error e =>
            rw [hr] at h
            cases h
          | ok p =>
            obtain ⟨rep, st1⟩ := p
            rw [hr] at h
            obtain ⟨h1, hg1⟩ := ihrep st rep st1 hr
            cases res with
            | some acc =>
              have hgc := build_concat_good acc rep a st.next st1.next hinv hg1
              obtain ⟨h2, hg2⟩ := ihcg (some (build_concat acc rep)) st1 a nfa st'
                (by omega) hgc h
              exact ⟨by omega, hg2⟩
            | none =>
              have hae : a = st.next := hinv
              subst hae
              obtain ⟨h2, hg2⟩ := ihcg (some rep) st1 st.next nfa st' (by omega) hg1 h
              exact ⟨by omega, hg2⟩
    · intro st nfa st' h
      rw [show parse_rep (f + 1) st = (match parse_primary f st with
          | Except.error e => Except.error e
          | Except.ok (nfa1, st1) =>
            if (eat st1 '*').1 then
              Except.ok ((build_star (eat st1 '*').2 nfa1).1,
                (build_star (eat st1 '*').2 nfa1).2)
            else Except.ok (nfa1, st1)) from rfl] at h
      cases hpr : parse_primary f st with
      | error e =>
        rw [hpr] at h
        cases h
      | ok p =>
        obtain ⟨nfa1, st1⟩ := p
        rw [hpr] at h
        dsimp only at h
        obtain ⟨h1, hg1⟩ := ihp st nfa1 st1 hpr
        by_cases hb : (eat st1 '*').1 = true
        · rw [if_pos hb] at h
          injection h with h
          injection h with hn hs
          subst hn
          subst hs
          have hge : GoodNfa nfa1 st.next (eat st1 '*').2.next := by
            rw [eat_next]
            exact hg1
          have hgs := build_star_good (eat st1 '*').2 nfa1 st.next hge
          have hsn : (build_star (eat st1 '*').2 nfa1).2.next =
              (eat st1 '*').2.next + 2 := by
            rw [build_star_next]
          have hen : (eat st1 '*').2.next = st1.next := eat_next st1 '*'
          refine ⟨?_, ?_⟩
          · rw [hsn, hen]
            omega
          · rw [hsn]
            exact hgs
        · rw [if_neg hb] at h
          injection h with h
          injection h with hn hs
          subst hn
          subst hs
          exact ⟨h1, hg1⟩
    · intro st nfa st' h
      rw [show parse_primary (f + 1) st = (match peek st with
          | some '(' =>
            match parse_regex f (consume st).2 with
            | Except.error e => Except.error e
            | Except.ok (nfa1, st2) =>
              if (eat st2 ')').1 then Except.ok (nfa1, (eat st2 ')').2)
              else Except.error "Expected ')'"
          | some '*' | some '|' | some ')' => Except.error "Unexpected token"
          | none => Except.error "Unexpected token"
          | some c =>
            Except.ok ((build_char (consume st).2 c).1, (build_char (consume st).2 c).2)
          ) from rfl] at h
      split at h
      · cases hrg : parse_regex f (consume st).2 with
        | error e =>
          rw [hrg] at h
          cases h
        | ok p =>
          obtain ⟨nfa1, st2⟩ := p
          rw [hrg] at h
          dsimp only at h
          obtain ⟨h1, hg1⟩ := ihr _ nfa1 st2 hrg
          rw [consume_next] at h1 hg1
          by_cases hb : (eat st2 ')').1 = true
          · rw [if_pos hb] at h
            injection h with h
            injection h with hn hs
            subst hn
            subst hs
            rw [eat_next]
            exact ⟨h1, hg1⟩
          · rw [if_neg hb] at h
            cases h
      · cases h
      · cases h
      · cases h
      · cases h
      · rename_i lbl c hno1 hno2 hno3 hno4 heq
        injection h with h
        injection h with hn hs
        subst hn
        subst hs
        have h2 : (consume st).2.next = st.next := consume_next st
        have hsn : (build_char (consume st).2 c).2.next = st.next + 2 := by
          rw [build_char_next]
          dsimp only
          rw [h2]
        have hg := build_char_good (consume st).2 c
        rw [h2] at hg
        constructor
        · rw [hsn]
          omega
        · rw [hsn]
          exact hg

theorem keys_of_getTrans (t : Transitions) (s : State) (v : TransList)
    (h : getTrans t s = some v) : s ∈ keysTrans t :=
  List.mem_map.mpr ⟨(s, v), getTrans_mem _ _ _ h, rfl⟩

theorem keys_window (t : Transitions) (a b : Nat)
    (hw : ∀ e ∈ t, inWindow a b e.1 ∧ ∀ q ∈ e.2, inWindow a b q.2) :
    ∀ k ∈ keysTrans t, inWindow a b k := by
  intro k hk
  obtain ⟨e, he, he1⟩ := List.mem_map.mp hk
  exact he1 ▸ (hw e he).1

theorem getTrans_none_of_window_below (t : Transitions) (a b x : Nat)
    (hw : ∀ e ∈ t, inWindow a b e.1 ∧ ∀ q ∈ e.2, inWindow a b q.2)
    (hx : x < a) : getTrans t x = none := by
  rw [getTrans_eq_none_iff]
  intro hk
  obtain ⟨h1, h2⟩ := keys_window t a b hw x hk
  omega

theorem regex_to_nfa_good (p : String) (nfa : Nfa)
    (h : regex_to_nfa p = Except.ok nfa) : ∃ b, GoodNfa nfa 0 b := by
  unfold regex_to_nfa at h
  dsimp only at h
  cases hr : parse_regex (parseFuel p.data) { rest := p.data, next := 0 } with
  | error e =>
    rw [hr] at h
    cases h
  | ok q =>
    obtain ⟨nfa0, st2⟩ := q
    rw [hr] at h
    dsimp only at h
    cases hp : peek st2 with
    | some c =>
      rw [hp] at h
      cases h
    | none =>
      rw [hp] at h
      injection h with h
      subst h
      obtain ⟨-, hg⟩ := (parse_good_all _).1 _ nfa0 st2 hr
      exact ⟨st2.next, hg⟩

/-- **C10**: in every automaton returned by `regex_to_nfa`, and in every
fragment built by the four construction rules (literal unconditionally;
concatenation, alternation and star whenever their operands satisfy the
compiler invariant, as the parser always arranges), the accept state has
no outgoing transitions: the transition map has no entry keyed by the
fragment's accept state at the moment the fragment is returned. -/
theorem accept_state_no_out :
    (∀ p nfa, regex_to_nfa p = Except.ok nfa →
      getTrans nfa.transitions nfa.accept = none) ∧
    (∀ st c, getTrans (build_char st c).1.transitions (build_char st c).1.accept = none) ∧
    (∀ L R a b c, GoodNfa L a b → GoodNfa R b c →
      getTrans (build_concat L R).transitions (build_concat L R).accept = none) ∧
    (∀ st L R a b, GoodNfa L a b → GoodNfa R b st.next →
      getTrans (build_alt st L R).1.transitions (build_alt st L R).1.accept = none) ∧
    (∀ st X a, GoodNfa X a st.next →
      getTrans (build_star st X).1.transitions (build_star st X).1.accept = none) := by
  refine ⟨?_, ?_, ?_, ?_, ?_⟩
  · intro p nfa h
    obtain ⟨b, hg⟩ := regex_to_nfa_good p nfa h
    exact hg.2.2
  · intro st c
    exact (build_char_good st c).2.2
  · intro L R a b c hL hR
    exact (build_concat_good L R a b c hL hR).2.2
  · intro st L R a b hL hR
    exact (build_alt_good st L R a b hL hR).2.2
  · intro st X a hX
    exact (build_star_good st X a hX).2.2

/-- Witness for `accept_state_no_out`: the compiled pattern `"a"` and a
concrete concatenation of two literal fragments. -/
theorem accept_state_no_out_witness :
    (∀ nfa, regex_to_nfa "a" = Except.ok nfa →
      getTrans nfa.transitions nfa.accept = none) ∧
    getTrans (build_concat (Nfa.mk 0 1 [(0, [(some 'a', 1)])])
        (Nfa.mk 2 3 [(2, [(some 'b', 3)])])).transitions
      (build_concat (Nfa.mk 0 1 [(0, [(some 'a', 1)])])
        (Nfa.mk 2 3 [(2, [(some 'b', 3)])])).accept = none :=
  ⟨fun nfa h => accept_state_no_out.1 "a" nfa h,
    accept_state_no_out.2.2.1 (Nfa.mk 0 1 [(0, [(some 'a', 1)])])
      (Nfa.mk 2 3 [(2, [(some 'b', 3)])]) 0 2 4 (by decide) (by decide)⟩

theorem keysDisjoint_of_windows (L R : Nfa) (a b c : Nat)
    (hL : GoodNfa L a b) (hR : GoodNfa R b c) :
    keysDisjoint L.transitions R.transitions := by
  intro k hkL hkR
  obtain ⟨-, h2⟩ := keys_window L.transitions a b hL.1.2.2 k hkL
  obtain ⟨h3, -⟩ := keys_window R.transitions b c hR.1.2.2 k hkR
  omega

theorem transMem_concat_left (L R : Nfa) (a b c : Nat)
    (hL : GoodNfa L a b) (hR : GoodNfa R b c) (x : State) (l : Label) (d : State)
    (hm : transMem L.transitions x l d) :
    transMem (build_concat L R).transitions x l d := by
  obtain ⟨v, hv, hmem⟩ := hm
  have hxb : x < b := (keys_window L.transitions a b hL.1.2.2 x
    (keys_of_getTrans _ _ _ hv)).2
  have hxa : ¬(x = L.accept) := by
    intro hc
    rw [hc, hL.2.2] at hv
    cases hv
  refine ⟨v, ?_, hmem⟩
  rw [build_concat_eq]
  show getTrans (addTrans (extendTrans L.transitions R.transitions)
    L.accept none R.start) x = some v
  rw [getTrans_addTrans, if_neg hxa, getTrans_extendTrans _ _ hR.2.1,
    getTrans_none_of_window_below R.transitions b c x hR.1.2.2 hxb]
  exact hv

theorem transMem_alt_left (st : PState) (L R : Nfa) (a b : Nat)
    (hL : GoodNfa L a b) (hR : GoodNfa R b st.next) (x : State) (l : Label) (d : State)
    (hm : transMem L.transitions x l d) :
    transMem (build_alt st L R).1.transitions x l d := by
  obtain ⟨v, hv, hmem⟩ := hm
  have hbn : b < st.next := GoodNfa.lt _ _ _ hR
  have hxb : x < b := (keys_window L.transitions a b hL.1.2.2 x
    (keys_of_getTrans _ _ _ hv)).2
  have hxa : ¬(x = L.accept) := by
    intro hc
    rw [hc, hL.2.2] at hv
    cases hv
  have hxra : ¬(x = R.accept) := Nat.ne_of_lt (lt_of_lt_of_le hxb hR.1.2.1.1)
  have hxn : ¬(x = st.next) := Nat.ne_of_lt (lt_trans hxb hbn)
  refine ⟨v, ?_, hmem⟩
  rw [build_alt_eq]
  show getTrans (addTrans (addTrans (addTrans (addTrans
    (extendTrans L.transitions R.transitions)
    st.next none L.start) st.next none R.start)
    L.accept none (st.next + 1)) R.accept none (st.next + 1)) x = some v
  rw [getTrans_addTrans, if_neg hxra, getTrans_addTrans, if_neg hxa,
    getTrans_addTrans, if_neg hxn, getTrans_addTrans, if_neg hxn,
    getTrans_extendTrans _ _ hR.2.1,
    getTrans_none_of_window_below R.transitions b st.next x hR.1.2.2 hxb]
  exact hv

/-- **C9**: every fragment a parse call returns occupies exactly the
window of states the monotonically increasing fresh-state counter handed
out during that call, so when `build_concat` or `build_alt` merges the
transition maps of two operands built one after the other, the operands'
key sets are disjoint, and the replace-on-collision semantics of
`HashMap::extend` discards no transition of the left operand. -/
theorem merge_operands_never_discard :
    (∀ f st nfa st', parse_regex f st = Except.ok (nfa, st') →
      GoodNfa nfa st.next st'.next) ∧
    (∀ L R a b c, GoodNfa L a b → GoodNfa R b c →
      keysDisjoint L.transitions R.transitions ∧
      (∀ x l d, transMem L.transitions x l d →
        transMem (build_concat L R).transitions x l d) ∧
      (∀ st : PState, c ≤ st.next → ∀ x l d, transMem L.transitions x l d →
        transMem (build_alt st L R).1.transitions x l d)) := by
  constructor
  · intro f st nfa st' h
    exact ((parse_good_all f).1 st nfa st' h).2
  · intro L R a b c hL hR
    refine ⟨keysDisjoint_of_windows L R a b c hL hR, ?_, ?_⟩
    · exact transMem_concat_left L R a b c hL hR
    · intro st hc x l d hm
      exact transMem_alt_left st L R a b hL (GoodNfa.mono R b c b st.next hR
        (le_refl b) hc) x l d hm

/-- Witness for `merge_operands_never_discard`: the parse of `"a"` and
two concrete literal fragments with adjacent windows. -/
theorem merge_operands_never_discard_witness :
    GoodNfa (Nfa.mk 0 1 [(0, [(some 'a', 1)])]) 0 2 ∧
    keysDisjoint [(0, [((some 'a' : Label), 1)])] [(2, [((some 'b' : Label), 3)])] ∧
    transMem (build_concat (Nfa.mk 0 1 [(0, [(some 'a', 1)])])
      (Nfa.mk 2 3 [(2, [(some 'b', 3)])])).transitions 0 (some 'a') 1 := by
  refine ⟨?_, ?_, ?_⟩
  · exact merge_operands_never_discard.1 (parseFuel ['a'])
      { rest := ['a'], next := 0 } _ { rest := [], next := 2 } rfl
  · exact (merge_operands_never_discard.2 (Nfa.mk 0 1 [(0, [(some 'a', 1)])])
      (Nfa.mk 2 3 [(2, [(some 'b', 3)])]) 0 2 4 (by decide) (by decide)).1
  · exact (merge_operands_never_discard.2 (Nfa.mk 0 1 [(0, [(some 'a', 1)])])
      (Nfa.mk 2 3 [(2, [(some 'b', 3)])]) 0 2 4 (by decide) (by decide)).2.1
      0 (some 'a') 1 ⟨[(some 'a', 1)], rfl, List.mem_cons_self _ _⟩

theorem build_concat_get_accept (L R : Nfa) (a b c : Nat)
    (hL : GoodNfa L a b) (hR : GoodNfa R b c) :
    getTrans (build_concat L R).transitions L.accept =
      some [((none : Label), R.start)] := by
  have hab : L.accept < b := hL.1.2.1.2
  rw [build_concat_eq]
  show getTrans (addTrans (extendTrans L.transitions R.transitions)
    L.accept none R.start) L.accept = some [((none : Label), R.start)]
  rw [getTrans_addTrans, if_pos rfl, getTrans_extendTrans _ _ hR.2.1,
    getTrans_none_of_window_below R.transitions b c L.accept hR.1.2.2 hab, hL.2.2]
  rfl

/-- **C6**: `Concatenation(L, R)` merges the transition sets of `L` and
`R` (losing nothing, since the operands' key windows are disjoint), adds
the single epsilon transition `L.accept → R.start`, and returns an
automaton with `start = L.start` and `accept = R.accept`.  Every key of
the result is a key of `L` or of `R` or is `L.accept` — the rule
allocates no state from the fresh-state counter (indeed `build_concat`
never touches it). -/
theorem build_concat_spec (L R : Nfa) (a b c : Nat)
    (hL : GoodNfa L a b) (hR : GoodNfa R b c) :
    (build_concat L R).start = L.start ∧
    (build_concat L R).accept = R.accept ∧
    (∀ x l d, transMem (build_concat L R).transitions x l d ↔
      (transMem L.transitions x l d ∨ transMem R.transitions x l d ∨
        (x = L.accept ∧ l = none ∧ d = R.start))) ∧
    (∀ k ∈ keysTrans (build_concat L R).transitions,
      k ∈ keysTrans L.transitions ∨ k ∈ keysTrans R.transitions ∨ k = L.accept) := by
  have hacc := build_concat_get_accept L R a b c hL hR
  refine ⟨rfl, rfl, ?_, ?_⟩
  · intro x l d
    constructor
    · rintro ⟨v, hv, hmem⟩
      by_cases hx : x = L.accept
      · subst hx
        rw [hacc] at hv
        injection hv with hv
        subst hv
        rcases List.mem_singleton.mp hmem with h
        injection h with h1 h2
        exact Or.inr (Or.inr ⟨rfl, h1, h2⟩)
      · rw [build_concat_eq] at hv
        rw [show getTrans (Nfa.mk L.start R.accept
            (addTrans (extendTrans L.transitions R.transitions)
              L.accept none R.start)).transitions x =
          getTrans (addTrans (extendTrans L.transitions R.transitions)
            L.accept none R.start) x from rfl] at hv
        rw [getTrans_addTrans, if_neg hx, getTrans_extendTrans _ _ hR.2.1] at hv
        cases hg : getTrans R.transitions x with
        | some w =>
          rw [hg] at hv
          injection hv with hv
          subst hv
          exact Or.inr (Or.inl ⟨w, hg, hmem⟩)
        | none =>
          rw [hg] at hv
          exact Or.inl ⟨v, hv, hmem⟩
    · rintro (hm | hm | ⟨rfl, rfl, rfl⟩)
      · exact transMem_concat_left L R a b c hL hR x l d hm
      · obtain ⟨w, hw, hmem⟩ := hm
        have hxb : b ≤ x := (keys_window R.transitions b c hR.1.2.2 x
          (keys_of_getTrans _ _ _ hw)).1
        have hxa : ¬(x = L.accept) := Nat.ne_of_gt (lt_of_lt_of_le hL.1.2.1.2 hxb)
        refine ⟨w, ?_, hmem⟩
        rw [build_concat_eq]
        show getTrans (addTrans (extendTrans L.transitions R.transitions)
          L.accept none R.start) x = some w
        rw [getTrans_addTrans, if_neg hxa, getTrans_extendTrans _ _ hR.2.1, hw]
      · exact ⟨[((none : Label), R.start)], hacc, List.mem_singleton.mpr rfl⟩
  · intro k hk
    rw [show keysTrans (build_concat L R).transitions =
      keysTrans (addTrans (extendTrans L.transitions R.transitions)
        L.accept none R.start) from rfl] at hk
    rcases (keysTrans_addTrans_mem _ _ _ _ _).mp hk with h | h
    · rcases (keysTrans_extendTrans_mem _ _ _).mp h with h | h
      · exact Or.inl h
      · exact Or.inr (Or.inl h)
    · exact Or.inr (Or.inr h)

/-- Witness for `build_concat_spec`: two concrete literal fragments. -/
theorem build_concat_spec_witness :
    (build_concat (Nfa.mk 0 1 [(0, [(some 'a', 1)])])
      (Nfa.mk 2 3 [(2, [(some 'b', 3)])])).start = 0 ∧
    (build_concat (Nfa.mk 0 1 [(0, [(some 'a', 1)])])
      (Nfa.mk 2 3 [(2, [(some 'b', 3)])])).accept = 3 ∧
    transMem (build_concat (Nfa.mk 0 1 [(0, [(some 'a', 1)])])
      (Nfa.mk 2 3 [(2, [(some 'b', 3)])])).transitions 1 none 2 := by
  have h := build_concat_spec (Nfa.mk 0 1 [(0, [(some 'a', 1)])])
    (Nfa.mk 2 3 [(2, [(some 'b', 3)])]) 0 2 4 (by decide) (by decide)
  exact ⟨h.1, h.2.1, (h.2.2.1 1 none 2).mpr (Or.inr (Or.inr ⟨rfl, rfl, rfl⟩))⟩

/-! ## The compiler on purely-literal patterns builds a chain automaton -/

theorem parse_primary_lit (f : Nat) (c : Char) (cs : List Char) (n : Nat)
    (hc : isLiteral c) :
    parse_primary (f + 1) { rest := c :: cs, next := n } =
      Except.ok (Nfa.mk n (n + 1) [(n, [(some c, n + 1)])],
        { rest := cs, next := n + 2 }) := by
  obtain ⟨hc1, hc2, hc3, hc4⟩ := hc
  rw [show parse_primary (f + 1) { rest := c :: cs, next := n } =
      (match (some c : Label) with
        | some '(' =>
          match parse_regex f (consume { rest := c :: cs, next := n }).2 with
          | Except.error e => Except.error e
          | Except.ok (nfa1, st2) =>
            if (eat st2 ')').1 then Except.ok (nfa1, (eat st2 ')').2)
            else Except.error "Expected ')'"
        | some '*' | some '|' | some ')' => Except.error "Unexpected token"
        | none => Except.error "Unexpected token"
        | some c2 =>
          Except.ok ((build_char (consume { rest := c :: cs, next := n }).2 c2).1,
            (build_char (consume { rest := c :: cs, next := n }).2 c2).2)) from rfl]
  split
  · rename_i heq
    injection heq with heq
    exact absurd heq hc1
  · rename_i heq
    injection heq with heq
    exact absurd heq hc4
  · rename_i heq
    injection heq with heq
    exact absurd heq hc3
  · rename_i heq
    injection heq with heq
    exact absurd heq hc2
  · rename_i heq
    cases heq
  · rename_i heq
    injection heq with heq
    subst heq
    rfl

theorem parse_rep_lit (f : Nat) (c : Char) (cs : List Char) (n : Nat)
    (hc : isLiteral c) (hcs : cs.head? ≠ some '*') :
    parse_rep (f + 2) { rest := c :: cs, next := n } =
      Except.ok (Nfa.mk n (n + 1) [(n, [(some c, n + 1)])],
        { rest := cs, next := n + 2 }) := by
  rw [show parse_rep (f + 2) { rest := c :: cs, next := n } =
      (match parse_primary (f + 1) { rest := c :: cs, next := n } with
        | Except.error e => Except.error e
        | Except.ok (nfa1, st1) =>
          if (eat st1 '*').1 then
            Except.ok ((build_star (eat st1 '*').2 nfa1).1,
              (build_star (eat st1 '*').2 nfa1).2)
          else Except.ok (nfa1, st1)) from rfl]
  rw [parse_primary_lit f c cs n hc]
  dsimp only
  rw [if_neg]
  intro hb
  unfold eat at hb
  rw [show peek { rest := cs, next := n + 2 } = cs.head? from rfl] at hb
  rw [if_neg hcs] at hb
  cases hb

theorem parse_concat_go_lit (cs : List Char) :
    ∀ (f : Nat) (acc : Nfa) (n : Nat), (∀ c ∈ cs, isLiteral c) →
      cs.length + 3 ≤ f →
      parse_concat_go f (some acc) { rest := cs, next := n } =
        Except.ok (chainAppend acc n cs, { rest := [], next := n + 2 * cs.length }) := by
  induction cs with
  | nil =>
    intro f acc n hlit hf
    cases f with
    | zero => omega
    | succ g =>
      rw [parse_concat_go_succ]
      rfl
  | cons c cs' ih =>
    intro f acc n hlit hf
    have hc : isLiteral c := hlit c (List.mem_cons_self _ _)
    cases f with
    | zero => simp at hf
    | succ g =>
      rw [parse_concat_go_succ]
      rw [show peek { rest := c :: cs', next := n } = some c from rfl]
      dsimp only
      rw [if_neg (by
        rintro (h | h)
        · exact hc.2.1 h
        · exact hc.2.2.1 h)]
      have hg2 : ∃ k, g = k + 2 := by
        refine ⟨g - 2, ?_⟩
        have : cs'.length + 2 ≤ g := by
          simp only [List.length_cons] at hf
          omega
        omega
      obtain ⟨k, rfl⟩ := hg2
      rw [parse_rep_lit k c cs' n hc (by
        cases cs' with
        | nil => simp
        | cons c2 cs2 =>
          intro hh
          injection hh with hh
          exact (hlit c2 (List.mem_cons_of_mem _ (List.mem_cons_self _ _))).2.2.2 hh)]
      dsimp only
      rw [ih (k + 2) (build_concat acc (Nfa.mk n (n + 1) [(n, [(some c, n + 1)])]))
        (n + 2) (fun x hx => hlit x (List.mem_cons_of_mem _ hx)) (by
          simp only [List.length_cons] at hf
          omega)]
      rw [show chainAppend acc n (c :: cs') =
        chainAppend (build_concat acc (Nfa.mk n (n + 1) [(n, [(some c, n + 1)])]))
          (n + 2) cs' from rfl]
      rw [show (c :: cs').length = cs'.length + 1 from rfl]
      rw [show n + 2 + 2 * cs'.length = n + 2 * (cs'.length + 1) from by omega]

theorem parse_concat_lit (f : Nat) (c : Char) (cs : List Char) (n : Nat)
    (hc : isLiteral c) (hcs : ∀ x ∈ cs, isLiteral x) (hf : cs.length + 7 ≤ f) :
    parse_concat f { rest := c :: cs, next := n } =
      Except.ok (chainAppend (Nfa.mk n (n + 1) [(n, [(some c, n + 1)])]) (n + 2) cs,
        { rest := [], next := n + 2 + 2 * cs.length }) := by
  cases f with
  | zero => omega
  | succ g =>
    rw [show parse_concat (g + 1) { rest := c :: cs, next := n } =
      parse_concat_go g none { rest := c :: cs, next := n } from rfl]
    cases g with
    | zero => omega
    | succ g2 =>
      rw [parse_concat_go_succ]
      rw [show peek { rest := c :: cs, next := n } = some c from rfl]
      dsimp only
      rw [if_neg (by
        rintro (h | h)
        · exact hc.2.1 h
        · exact hc.2.2.1 h)]
      have hg2 : ∃ k, g2 = k + 2 := ⟨g2 - 2, by omega⟩
      obtain ⟨k, rfl⟩ := hg2
      rw [parse_rep_lit k c cs n hc (by
        cases cs with
        | nil => simp
        | cons c2 cs2 =>
          intro hh
          injection hh with hh
          exact (hcs c2 (List.mem_cons_self _ _)).2.2.2 hh)]
      dsimp only
      rw [parse_concat_go_lit cs (k + 2) (Nfa.mk n (n + 1) [(n, [(some c, n + 1)])])
        (n + 2) hcs (by omega)]

theorem compile_lit (c0 : Char) (cs : List Char)
    (h : ∀ x ∈ c0 :: cs, isLiteral x) :
    regex_to_nfa (String.mk (c0 :: cs)) =
      Except.ok (chainAppend (Nfa.mk 0 1 [(0, [(some c0, 1)])]) 2 cs) := by
  have hc : isLiteral c0 := h c0 (List.mem_cons_self _ _)
  have hcs : ∀ x ∈ cs, isLiteral x := fun x hx => h x (List.mem_cons_of_mem _ hx)
  unfold regex_to_nfa
  dsimp only
  have hfuel : parseFuel (c0 :: cs) = 10 * (cs.length + 1 + 2) := by
    simp [parseFuel]
  rw [hfuel]
  have h10 : ∃ m, 10 * (cs.length + 1 + 2) = (m + 1) + 1 + 1 := ⟨10 * (cs.length + 3) - 3, by omega⟩
  obtain ⟨m, hm⟩ := h10
  rw [hm]
  rw [show parse_regex (m + 1 + 1 + 1) { rest := c0 :: cs, next := 0 } =
    parse_alt (m + 1 + 1) { rest := c0 :: cs, next := 0 } from rfl]
  rw [show parse_alt (m + 1 + 1) { rest := c0 :: cs, next := 0 } =
    (match parse_concat (m + 1) { rest := c0 :: cs, next := 0 } with
      | Except.error e => Except.error e
      | Except.ok (left, st1) => parse_alt_go (m + 1) left st1) from rfl]
  rw [parse_concat_lit (m + 1) c0 cs 0 hc hcs (by omega)]
  dsimp only
  rw [show parse_alt_go (m + 1)
      (chainAppend (Nfa.mk 0 1 [(0, [(some c0, 1)])]) 2 cs)
      { rest := [], next := 0 + 2 + 2 * cs.length } =
    Except.ok (chainAppend (Nfa.mk 0 1 [(0, [(some c0, 1)])]) 2 cs,
      { rest := [], next := 0 + 2 + 2 * cs.length }) from by
      rw [show parse_alt_go (m + 1)
          (chainAppend (Nfa.mk 0 1 [(0, [(some c0, 1)])]) 2 cs)
          { rest := [], next := 0 + 2 + 2 * cs.length } =
        (if (eat { rest := [], next := 0 + 2 + 2 * cs.length } '|').1 then
          match parse_concat m (eat { rest := [], next := 0 + 2 + 2 * cs.length } '|').2 with
          | Except.error er => Except.error er
          | Except.ok (right, st2) =>
            parse_alt_go m (build_alt st2
              (chainAppend (Nfa.mk 0 1 [(0, [(some c0, 1)])]) 2 cs) right).1
              (build_alt st2
                (chainAppend (Nfa.mk 0 1 [(0, [(some c0, 1)])]) 2 cs) right).2
        else Except.ok (chainAppend (Nfa.mk 0 1 [(0, [(some c0, 1)])]) 2 cs,
          { rest := [], next := 0 + 2 + 2 * cs.length })) from rfl]
      rw [if_neg]
      intro hb
      unfold eat at hb
      rw [show peek { rest := ([] : List Char), next := 0 + 2 + 2 * cs.length } = none
        from rfl] at hb
      rw [if_neg (by intro hh; cases hh)] at hb
      cases hb]
  rfl

theorem build_concat_char_get (acc : Nfa) (n : Nat) (c : Char)
    (hacc : acc.accept + 1 = n)
    (hhigh : ∀ s, n ≤ s → getTrans acc.transitions s = none)
    (haccnone : getTrans acc.transitions acc.accept = none) (s : Nat) :
    getTrans (build_concat acc (Nfa.mk n (n + 1) [(n, [(some c, n + 1)])])).transitions s =
      if s = acc.accept then some [((none : Label), n)]
      else if s = n then some [(some c, n + 1)]
      else getTrans acc.transitions s := by
  have hnd : (keysTrans [(n, [(some c, n + 1)])]).Nodup := by simp [keysTrans]
  have hext : ∀ s2, getTrans (extendTrans acc.transitions [(n, [(some c, n + 1)])]) s2 =
      if s2 = n then some [(some c, n + 1)] else getTrans acc.transitions s2 := by
    intro s2
    rw [getTrans_extendTrans _ _ hnd, getTrans_cons]
    by_cases h : s2 = n
    · subst h
      rw [if_pos rfl, if_pos rfl]
    · rw [if_neg (fun hc : n = s2 => h hc.symm), if_neg h]
      rfl
  rw [build_concat_eq]
  show getTrans (addTrans (extendTrans acc.transitions [(n, [(some c, n + 1)])])
    acc.accept none n) s = _
  rw [getTrans_addTrans]
  by_cases h1 : s = acc.accept
  · subst h1
    rw [if_pos rfl, if_pos rfl, hext acc.accept,
      if_neg (by omega : ¬(acc.accept = n)), haccnone]
    rfl
  · rw [if_neg h1, if_neg h1, hext s]

theorem chainAppend_spec (cs : List Char) :
    ∀ (acc : Nfa) (n : Nat),
      acc.accept + 1 = n →
      (∀ s : Nat, n ≤ s → getTrans acc.transitions s = none) →
      (keysTrans acc.transitions).Nodup →
      getTrans acc.transitions acc.accept = none →
      (chainAppend acc n cs).start = acc.start ∧
      (chainAppend acc n cs).accept + 1 = n + 2 * cs.length ∧
      (∀ s : Nat, getTrans (chainAppend acc n cs).transitions s =
        if cs.length = 0 then getTrans acc.transitions s
        else if s = acc.accept then some [((none : Label), n)]
        else if s < n then getTrans acc.transitions s
        else chainGet cs n s) ∧
      (∀ s : Nat, n + 2 * cs.length ≤ s →
        getTrans (chainAppend acc n cs).transitions s = none) ∧
      (keysTrans (chainAppend acc n cs).transitions).Nodup ∧
      getTrans (chainAppend acc n cs).transitions (chainAppend acc n cs).accept = none := by
  induction cs with
  | nil =>
    intro acc n hacc hhigh hnd haccnone
    refine ⟨rfl, by show acc.accept + 1 = n + 2 * ([] : List Char).length; simpa using hacc,
      ?_, ?_, hnd, haccnone⟩
    · intro s
      rw [if_pos (show ([] : List Char).length = 0 from rfl)]
      rfl
    · intro s hs
      exact hhigh s (by omega)
  | cons c cs' ih =>
    intro acc n hacc hhigh hnd haccnone
    have hgetA := build_concat_char_get acc n c hacc hhigh haccnone
    have haccA : (build_concat acc
        (Nfa.mk n (n + 1) [(n, [(some c, n + 1)])])).accept + 1 = n + 2 := rfl
    have hhighA : ∀ s, n + 2 ≤ s →
        getTrans (build_concat acc
          (Nfa.mk n (n + 1) [(n, [(some c, n + 1)])])).transitions s = none := by
      intro s hs
      rw [hgetA s, if_neg (by omega : ¬(s = acc.accept)), if_neg (by omega : ¬(s = n))]
      exact hhigh s (by omega)
    have hndA : (keysTrans (build_concat acc
        (Nfa.mk n (n + 1) [(n, [(some c, n + 1)])])).transitions).Nodup := by
      rw [build_concat_eq]
      exact keysTrans_addTrans_nodup _ _ _ _ (keysTrans_extendTrans_nodup _ _ hnd)
    have haccnoneA : getTrans (build_concat acc
        (Nfa.mk n (n + 1) [(n, [(some c, n + 1)])])).transitions
        (build_concat acc (Nfa.mk n (n + 1) [(n, [(some c, n + 1)])])).accept = none := by
      rw [show (build_concat acc
        (Nfa.mk n (n + 1) [(n, [(some c, n + 1)])])).accept = n + 1 from rfl]
      rw [hgetA (n + 1), if_neg (by omega : ¬(n + 1 = acc.accept)),
        if_neg (by omega : ¬(n + 1 = n))]
      exact hhigh (n + 1) (by omega)
    obtain ⟨ih1, ih2, ih3, ih4, ih5, ih6⟩ := ih
      (build_concat acc (Nfa.mk n (n + 1) [(n, [(some c, n + 1)])])) (n + 2)
      haccA hhighA hndA haccnoneA
    rw [show chainAppend acc n (c :: cs') =
      chainAppend (build_concat acc (Nfa.mk n (n + 1) [(n, [(some c, n + 1)])]))
        (n + 2) cs' from rfl]
    refine ⟨by rw [ih1]; rfl,
      by rw [ih2]; simp only [List.length_cons]; omega, ?_, ?_, ih5, ih6⟩
    · intro s
      rw [ih3 s]
      rw [if_neg (by simp : ¬((c :: cs').length = 0))]
      cases cs' with
      | nil =>
        rw [if_pos (show ([] : List Char).length = 0 from rfl)]
        rw [hgetA s]
        by_cases h1 : s = acc.accept
        · rw [if_pos h1, if_pos h1]
        · rw [if_neg h1, if_neg h1]
          by_cases h2 : s < n
          · rw [if_pos h2, if_neg (by omega : ¬(s = n))]
          · rw [if_neg h2]
            rw [show chainGet [c] n s =
              (if s = n then some [(some c, n + 1)] else none) from rfl]
            by_cases h3 : s = n
            · rw [if_pos h3, if_pos h3]
            · rw [if_neg h3, if_neg h3]
              exact hhigh s (by omega)
      | cons c2 cs2 =>
        rw [if_neg (by simp : ¬((c2 :: cs2).length = 0))]
        rw [show chainGet (c :: c2 :: cs2) n s =
          (if s = n then some [(some c, n + 1)]
           else if s = n + 1 then some [((none : Label), n + 2)]
           else chainGet (c2 :: cs2) (n + 2) s) from rfl]
        have haccAv : (build_concat acc
          (Nfa.mk n (n + 1) [(n, [(some c, n + 1)])])).accept = n + 1 := rfl
        rw [haccAv]
        by_cases h1 : s = acc.accept
        · rw [if_pos h1, if_neg (by omega : ¬(s = n + 1)),
            if_pos (by omega : s < n + 2), hgetA s, if_pos h1]
        · rw [if_neg h1]
          by_cases h2 : s < n
          · rw [if_pos h2, if_neg (by omega : ¬(s = n + 1)),
              if_pos (by omega : s < n + 2), hgetA s, if_neg h1,
              if_neg (by omega : ¬(s = n))]
          · rw [if_neg h2]
            by_cases h3 : s = n
            · rw [if_pos h3, if_neg (by omega : ¬(s = n + 1)),
                if_pos (by omega : s < n + 2), hgetA s, if_neg h1, if_pos h3]
            · rw [if_neg h3]
              by_cases h4 : s = n + 1
              · rw [if_pos h4, if_pos h4]
              · rw [if_neg h4, if_neg h4,
                  if_neg (by omega : ¬(s < n + 2))]
    · intro s hs
      refine ih4 s ?_
      simp only [List.length_cons] at hs
      omega

theorem compile_lit_spec (c0 : Char) (cs : List Char)
    (h : ∀ x ∈ c0 :: cs, isLiteral x) :
    ∃ nfa, regex_to_nfa (String.mk (c0 :: cs)) = Except.ok nfa ∧
      nfa.start = 0 ∧ nfa.accept + 1 = 2 * (c0 :: cs).length ∧
      (∀ s : Nat, getTrans nfa.transitions s = chainGet (c0 :: cs) 0 s) := by
  have hacc0 : (Nfa.mk 0 1 [(0, [(some c0, 1)])]).accept + 1 = 2 := rfl
  have hhigh0 : ∀ s : Nat, 2 ≤ s →
      getTrans (Nfa.mk 0 1 [(0, [(some c0, 1)])]).transitions s = none := by
    intro s hs
    rw [show (Nfa.mk 0 1 [(0, [(some c0, 1)])]).transitions =
      [(0, [(some c0, 1)])] from rfl, getTrans_cons]
    rw [if_neg (show ¬((0, [(some c0, 1)]) : Nat × TransList).1 = s from by
      dsimp only
      omega)]
    rfl
  have hnd0 : (keysTrans (Nfa.mk 0 1 [(0, [(some c0, 1)])]).transitions).Nodup := by
    simp [keysTrans]
  have haccnone0 : getTrans (Nfa.mk 0 1 [(0, [(some c0, 1)])]).transitions
      (Nfa.mk 0 1 [(0, [(some c0, 1)])]).accept = none := by
    rw [show (Nfa.mk 0 1 [(0, [(some c0, 1)])]).transitions =
      [(0, [(some c0, 1)])] from rfl, getTrans_cons]
    rw [if_neg (show ¬((0, [(some c0, 1)]) : Nat × TransList).1 =
      (Nfa.mk 0 1 [(0, [(some c0, 1)])]).accept from by
        dsimp only
        omega)]
    rfl
  obtain ⟨s1, s2, s3, s4, s5, s6⟩ := chainAppend_spec cs
    (Nfa.mk 0 1 [(0, [(some c0, 1)])]) 2 hacc0 hhigh0 hnd0 haccnone0
  refine ⟨chainAppend (Nfa.mk 0 1 [(0, [(some c0, 1)])]) 2 cs,
    compile_lit c0 cs h, by rw [s1], by rw [s2]; simp only [List.length_cons]; omega, ?_⟩
  intro s
  rw [s3 s]
  cases cs with
  | nil =>
    rw [if_pos (show ([] : List Char).length = 0 from rfl)]
    rw [show (Nfa.mk 0 1 [(0, [(some c0, 1)])]).transitions =
      [(0, [(some c0, 1)])] from rfl, getTrans_cons]
    rw [show chainGet [c0] 0 s =
      (if s = 0 then some [(some c0, 0 + 1)] else none) from rfl]
    by_cases h0 : s = 0
    · subst h0
      rw [if_pos rfl, if_pos rfl]
    · rw [if_neg (fun hc : (0 : Nat) = s => h0 hc.symm), if_neg h0]
      rfl
  | cons c1 cs1 =>
    rw [if_neg (by simp : ¬((c1 :: cs1).length = 0))]
    rw [show chainGet (c0 :: c1 :: cs1) 0 s =
      (if s = 0 then some [(some c0, 0 + 1)]
       else if s = 0 + 1 then some [((none : Label), 0 + 2)]
       else chainGet (c1 :: cs1) (0 + 2) s) from rfl]
    rw [show (Nfa.mk 0 1 [(0, [(some c0, 1)])]).accept = 1 from rfl]
    by_cases h1 : s = 1
    · rw [if_pos h1, if_neg (by omega : ¬(s = 0)), if_pos (by omega : s = 0 + 1)]
    · rw [if_neg h1]
      by_cases h0 : s = 0
      · subst h0
        rw [if_pos (by omega : (0 : Nat) < 2), if_pos rfl]
        rw [show (Nfa.mk 0 1 [(0, [(some c0, 1)])]).transitions =
          [(0, [(some c0, 1)])] from rfl, getTrans_cons, if_pos rfl]
      · rw [if_neg (by omega : ¬(s < 2)), if_neg h0,
          if_neg (show ¬(s = 0 + 1) from by omega)]

theorem chainGet_even (cs : List Char) :
    ∀ (n i : Nat) (hi : i < cs.length),
      chainGet cs n (n + 2 * i) = some [(some (cs.get ⟨i, hi⟩), n + 2 * i + 1)] := by
  induction cs with
  | nil =>
    intro n i hi
    simp at hi
  | cons c cs' ih =>
    intro n i hi
    cases cs' with
    | nil =>
      have hi0 : i = 0 := by
        simp at hi
        omega
      subst hi0
      rw [show chainGet [c] n (n + 2 * 0) =
        (if n + 2 * 0 = n then some [(some c, n + 1)] else none) from rfl]
      rw [if_pos (by omega : n + 2 * 0 = n)]
      rw [show n + 2 * 0 + 1 = n + 1 from by omega]
      rfl
    | cons c1 cs1 =>
      rw [show chainGet (c :: c1 :: cs1) n (n + 2 * i) =
        (if n + 2 * i = n then some [(some c, n + 1)]
         else if n + 2 * i = n + 1 then some [((none : Label), n + 2)]
         else chainGet (c1 :: cs1) (n + 2) (n + 2 * i)) from rfl]
      cases i with
      | zero =>
        rw [if_pos (by omega : n + 2 * 0 = n)]
        rw [show n + 2 * 0 + 1 = n + 1 from by omega]
        rfl
      | succ k =>
        rw [if_neg (by omega : ¬(n + 2 * (k + 1) = n)),
          if_neg (by omega : ¬(n + 2 * (k + 1) = n + 1))]
        have hk : k < (c1 :: cs1).length := by
          simp only [List.length_cons] at hi ⊢
          omega
        have := ih (n + 2) k hk
        rw [show n + 2 * (k + 1) = n + 2 + 2 * k from by omega, this]
        rfl

theorem chainGet_odd (cs : List Char) :
    ∀ (n i : Nat), i + 1 < cs.length →
      chainGet cs n (n + 2 * i + 1) = some [((none : Label), n + 2 * i + 2)] := by
  induction cs with
  | nil =>
    intro n i hi
    simp at hi
  | cons c cs' ih =>
    intro n i hi
    cases cs' with
    | nil =>
      simp at hi
    | cons c1 cs1 =>
      rw [show chainGet (c :: c1 :: cs1) n (n + 2 * i + 1) =
        (if n + 2 * i + 1 = n then some [(some c, n + 1)]
         else if n + 2 * i + 1 = n + 1 then some [((none : Label), n + 2)]
         else chainGet (c1 :: cs1) (n + 2) (n + 2 * i + 1)) from rfl]
      cases i with
      | zero =>
        rw [if_neg (by omega : ¬(n + 2 * 0 + 1 = n)),
          if_pos (by omega : n + 2 * 0 + 1 = n + 1)]
      | succ k =>
        rw [if_neg (by omega : ¬(n + 2 * (k + 1) + 1 = n)),
          if_neg (by omega : ¬(n + 2 * (k + 1) + 1 = n + 1))]
        have hk : k + 1 < (c1 :: cs1).length := by
          simp only [List.length_cons] at hi ⊢
          omega
        have := ih (n + 2) k hk
        rw [show n + 2 * (k + 1) + 1 = n + 2 + 2 * k + 1 from by omega, this]
        rw [show n + 2 + 2 * k + 2 = n + 2 * (k + 1) + 2 from by omega]

theorem chainGet_cases (cs : List Char) :
    ∀ (n s : Nat) (v : TransList), chainGet cs n s = some v →
      (∃ i, ∃ hi : i < cs.length, s = n + 2 * i ∧
        v = [(some (cs.get ⟨i, hi⟩), n + 2 * i + 1)]) ∨
      (∃ i, i + 1 < cs.length ∧ s = n + 2 * i + 1 ∧
        v = [((none : Label), n + 2 * i + 2)]) := by
  induction cs with
  | nil =>
    intro n s v h
    cases h
  | cons c cs' ih =>
    intro n s v h
    cases cs' with
    | nil =>
      rw [show chainGet [c] n s =
        (if s = n then some [(some c, n + 1)] else none) from rfl] at h
      by_cases h0 : s = n
      · rw [if_pos h0] at h
        injection h with h
        refine Or.inl ⟨0, by simp, by omega, ?_⟩
        rw [← h]
        rw [show n + 2 * 0 + 1 = n + 1 from by omega]
        rfl
      · rw [if_neg h0] at h
        cases h
    | cons c1 cs1 =>
      rw [show chainGet (c :: c1 :: cs1) n s =
        (if s = n then some [(some c, n + 1)]
         else if s = n + 1 then some [((none : Label), n + 2)]
         else chainGet (c1 :: cs1) (n + 2) s) from rfl] at h
      by_cases h0 : s = n
      · rw [if_pos h0] at h
        injection h with h
        refine Or.inl ⟨0, by simp, by omega, ?_⟩
        rw [← h]
        rw [show n + 2 * 0 + 1 = n + 1 from by omega]
        rfl
      · rw [if_neg h0] at h
        by_cases h1 : s = n + 1
        · rw [if_pos h1] at h
          injection h with h
          refine Or.inr ⟨0, by simp, by omega, ?_⟩
          rw [← h]
        · rw [if_neg h1] at h
          rcases ih (n + 2) s v h with ⟨i, hi, hs, hv⟩ | ⟨i, hi, hs, hv⟩
          · refine Or.inl ⟨i + 1, ?_, by omega, ?_⟩
            · simp only [List.length_cons] at hi ⊢
              omega
            · rw [hv]
              rw [show n + 2 * (i + 1) + 1 = n + 2 + 2 * i + 1 from by omega]
              rfl
          · refine Or.inr ⟨i + 1, ?_, by omega, ?_⟩
            · simp only [List.length_cons] at hi ⊢
              omega
            · rw [hv]
              rw [show n + 2 * (i + 1) + 2 = n + 2 + 2 * i + 2 from by omega]

theorem chainGet0_even (cs : List Char) (i : Nat) (hi : i < cs.length) :
    chainGet cs 0 (2 * i) = some [(some (cs.get ⟨i, hi⟩), 2 * i + 1)] := by
  have := chainGet_even cs 0 i hi
  rw [Nat.zero_add] at this
  exact this

theorem chainGet0_odd (cs : List Char) (i : Nat) (hi : i + 1 < cs.length) :
    chainGet cs 0 (2 * i + 1) = some [((none : Label), 2 * i + 2)] := by
  have := chainGet_odd cs 0 i hi
  rw [Nat.zero_add] at this
  exact this

theorem chain_charEdge (tr : Transitions) (cs : List Char)
    (hget : ∀ s : Nat, getTrans tr s = chainGet cs 0 s) (a : Nat) (c : Char) (x : Nat) :
    charEdge tr a c x ↔
      ∃ i, ∃ hi : i < cs.length, a = 2 * i ∧ x = 2 * i + 1 ∧ cs.get ⟨i, hi⟩ = c := by
  constructor
  · rintro ⟨v, hv, hm⟩
    rw [hget a] at hv
    rcases chainGet_cases cs 0 a v hv with ⟨i, hi, ha, hveq⟩ | ⟨i, hi, ha, hveq⟩
    · subst hveq
      rw [List.mem_singleton] at hm
      injection hm with h1 h2
      injection h1 with h1
      have h2n : x = 0 + 2 * i + 1 := h2
      exact ⟨i, hi, by omega, by omega, h1.symm⟩
    · subst hveq
      rw [List.mem_singleton] at hm
      injection hm with h1 h2
      cases h1
  · rintro ⟨i, hi, ha, hx, hc⟩
    refine ⟨[(some (cs.get ⟨i, hi⟩), 2 * i + 1)], ?_, ?_⟩
    · rw [hget, ha]
      exact chainGet0_even cs i hi
    · rw [hx, ← hc]
      exact List.mem_singleton.mpr rfl

theorem chain_epsEdge (tr : Transitions) (cs : List Char)
    (hget : ∀ s : Nat, getTrans tr s = chainGet cs 0 s) (a x : Nat) :
    epsEdge tr a x ↔ ∃ i, i + 1 < cs.length ∧ a = 2 * i + 1 ∧ x = 2 * i + 2 := by
  constructor
  · rintro ⟨v, hv, hm⟩
    rw [hget a] at hv
    rcases chainGet_cases cs 0 a v hv with ⟨i, hi, ha, hveq⟩ | ⟨i, hi, ha, hveq⟩
    · subst hveq
      rw [List.mem_singleton] at hm
      injection hm with h1 h2
      cases h1
    · subst hveq
      rw [List.mem_singleton] at hm
      injection hm with h1 h2
      have h2n : x = 0 + 2 * i + 2 := h2
      exact ⟨i, hi, by omega, by omega⟩
  · rintro ⟨i, hi, ha, hx⟩
    refine ⟨[((none : Label), 2 * i + 2)], ?_, ?_⟩
    · rw [hget, ha]
      exact chainGet0_odd cs i hi
    · rw [hx]
      exact List.mem_singleton.mpr rfl

theorem chain_reach (tr : Transitions) (cs : List Char)
    (hget : ∀ s : Nat, getTrans tr s = chainGet cs 0 s) (a x : Nat) :
    Relation.ReflTransGen (epsEdge tr) a x ↔
      x = a ∨ ∃ i, i + 1 < cs.length ∧ a = 2 * i + 1 ∧ x = 2 * i + 2 := by
  constructor
  · intro h
    rcases h.cases_head with h | ⟨b, hab, hbx⟩
    · exact Or.inl h.symm
    · obtain ⟨i, hi, ha, hb⟩ := (chain_epsEdge tr cs hget a b).mp hab
      have hxb : x = b := by
        rcases hbx.cases_head with h2 | ⟨d, hbd, -⟩
        · exact h2.symm
        · obtain ⟨i2, hi2, hb2, -⟩ := (chain_epsEdge tr cs hget b d).mp hbd
          omega
      exact Or.inr ⟨i, hi, ha, by omega⟩
  · rintro (rfl | ⟨i, hi, ha, hx⟩)
    · exact Relation.ReflTransGen.refl
    · exact Relation.ReflTransGen.single
        ((chain_epsEdge tr cs hget a x).mpr ⟨i, hi, ha, hx⟩)

theorem simFold_dead (N : Nfa) :
    ∀ (l : List Char) (S : StateSet), (∀ y : Nat, y ∉ S) →
      ∀ x : Nat, x ∉ l.foldl (simStep N) S := by
  intro l
  induction l with
  | nil =>
    intro S h x
    exact h x
  | cons c l' ih =>
    intro S h x
    rw [List.foldl_cons]
    refine ih (simStep N S c) ?_ x
    intro y hy
    rw [simStep_mem] at hy
    obtain ⟨s, hs, -⟩ := hy
    exact h s hs

theorem chain_fold (N : Nfa) (cs : List Char)
    (hget : ∀ s : Nat, getTrans N.transitions s = chainGet cs 0 s)
    (hk : 1 ≤ cs.length) (l : List Char) :
    ∀ (j : Nat) (S : StateSet), j ≤ cs.length →
      (∀ x : Nat, x ∈ S ↔ ((x = 2 * j ∧ j < cs.length) ∨ (x = 2 * j - 1 ∧ 1 ≤ j))) →
      ((2 * cs.length - 1) ∈ l.foldl (simStep N) S ↔ l = cs.drop j) := by
  induction l with
  | nil =>
    intro j S hj hS
    simp only [List.foldl_nil]
    rw [hS (2 * cs.length - 1)]
    constructor
    · rintro (⟨h1, h2⟩ | ⟨h1, h2⟩)
      · exact absurd h1 (by omega)
      · rw [show j = cs.length from by omega, List.drop_length]
    · intro hl
      have hlen : cs.length ≤ j := by
        have := congrArg List.length hl
        simp only [List.length_nil, List.length_drop] at this
        omega
      exact Or.inr ⟨by omega, by omega⟩
  | cons c l' ih =>
    intro j S hj hS
    rw [List.foldl_cons]
    by_cases hjk : j < cs.length
    · by_cases hc : cs.get ⟨j, hjk⟩ = c
      · have hstep : ∀ x : Nat, x ∈ simStep N S c ↔
            ((x = 2 * (j + 1) ∧ j + 1 < cs.length) ∨
              (x = 2 * (j + 1) - 1 ∧ 1 ≤ j + 1)) := by
          intro x
          rw [simStep_mem]
          constructor
          · rintro ⟨s, hsS, t, hedge, hreach⟩
            obtain ⟨i, hi, hsi, hti, hci⟩ :=
              (chain_charEdge N.transitions cs hget s c t).mp hedge
            have hsS2 := (hS s).mp hsS
            have hij : i = j := by
              rcases hsS2 with ⟨h1, -⟩ | ⟨h1, h2⟩
              · omega
              · omega
            rcases (chain_reach N.transitions cs hget t x).mp hreach with
              h | ⟨i2, hi2, ht2, hx2⟩
            · exact Or.inr ⟨by omega, by omega⟩
            · exact Or.inl ⟨by omega, by omega⟩
          · have hedge : charEdge N.transitions (2 * j) c (2 * j + 1) :=
              (chain_charEdge N.transitions cs hget (2 * j) c (2 * j + 1)).mpr
                ⟨j, hjk, rfl, rfl, hc⟩
            have hsS2 : (2 * j : Nat) ∈ S := (hS (2 * j)).mpr (Or.inl ⟨rfl, hjk⟩)
            rintro (⟨hx, hjlen⟩ | ⟨hx, -⟩)
            · refine ⟨2 * j, hsS2, 2 * j + 1, hedge, ?_⟩
              exact (chain_reach N.transitions cs hget (2 * j + 1) x).mpr
                (Or.inr ⟨j, hjlen, rfl, by omega⟩)
            · refine ⟨2 * j, hsS2, 2 * j + 1, hedge, ?_⟩
              exact (chain_reach N.transitions cs hget (2 * j + 1) x).mpr
                (Or.inl (by omega))
        rw [ih (j + 1) (simStep N S c) (by omega) hstep]
        rw [List.drop_eq_getElem_cons hjk]
        constructor
        · intro h
          rw [h, ← hc]
          rfl
        · intro h
          injection h with h1 h2
      · have hdead : ∀ x : Nat, x ∉ simStep N S c := by
          intro x hx
          rw [simStep_mem] at hx
          obtain ⟨s, hsS, t, hedge, -⟩ := hx
          obtain ⟨i, hi, hsi, -, hci⟩ :=
            (chain_charEdge N.transitions cs hget s c t).mp hedge
          have hsS2 := (hS s).mp hsS
          have hij : i = j := by
            rcases hsS2 with ⟨h1, -⟩ | ⟨h1, h2⟩
            · omega
            · omega
          have hfe : (⟨i, hi⟩ : Fin cs.length) = ⟨j, hjk⟩ := Fin.ext hij
          rw [hfe] at hci
          exact hc hci
        constructor
        · intro hmem
          exact absurd hmem (simFold_dead N l' (simStep N S c) hdead (2 * cs.length - 1))
        · intro hl
          rw [List.drop_eq_getElem_cons hjk] at hl
          injection hl with h1 h2
          exact absurd (by rw [h1]; exact List.get_eq_getElem cs ⟨j, hjk⟩) hc
    · have hjeq : j = cs.length := by omega
      subst hjeq
      have hdead : ∀ x : Nat, x ∉ simStep N S c := by
        intro x hx
        rw [simStep_mem] at hx
        obtain ⟨s, hsS, t, hedge, -⟩ := hx
        obtain ⟨i, hi, hsi, -, -⟩ :=
          (chain_charEdge N.transitions cs hget s c t).mp hedge
        rcases (hS s).mp hsS with ⟨-, h2⟩ | ⟨h1, h2⟩
        · exact absurd h2 (by omega)
        · omega
      constructor
      · intro hmem
        exact absurd hmem (simFold_dead N l' (simStep N S c) hdead (2 * cs.length - 1))
      · intro hl
        rw [List.drop_length] at hl
        exact absurd hl (List.cons_ne_nil c l')

/-- **C2**: for every non-empty pattern made only of literal characters
(no `(`, `)`, `|` or `*`) — the pure literal/concatenation fragment of
the grammar, where concatenation is the only applicable composition —
compilation succeeds and the compiled automaton's `simulate` returns
`true` on an input string if and only if the input equals the sequence
of the pattern's literals in order, i.e. the pattern string itself. -/
theorem literal_concat_correct (p s : String)
    (hlit : ∀ c ∈ p.data, isLiteral c) (hne : p ≠ "") :
    ∃ nfa, regex_to_nfa p = Except.ok nfa ∧ (nfa.simulate s = true ↔ s = p) := by
  obtain ⟨pd⟩ := p
  obtain ⟨sd⟩ := s
  cases pd with
  | nil => exact absurd (by decide) hne
  | cons c0 cs =>
    obtain ⟨nfa, hok, hstart, haccept, hget⟩ :=
      compile_lit_spec c0 cs (fun x hx => hlit x hx)
    refine ⟨nfa, hok, ?_⟩
    rw [simulate_eq_decide, decide_eq_true_iff]
    have hacc : nfa.accept = 2 * (c0 :: cs).length - 1 := by omega
    have hinit : ∀ x : Nat, x ∈ nfa.eps_closure [nfa.start] ↔
        ((x = 2 * 0 ∧ 0 < (c0 :: cs).length) ∨ (x = 2 * 0 - 1 ∧ 1 ≤ 0)) := by
      intro x
      rw [eps_closure_mem_iff]
      constructor
      · rintro ⟨s0, hs0, hreach⟩
        rw [List.mem_singleton] at hs0
        subst hs0
        rw [hstart] at hreach
        rcases (chain_reach nfa.transitions (c0 :: cs) hget 0 x).mp hreach with
          h | ⟨i, hi, h0, hx⟩
        · exact Or.inl ⟨by omega, by simp⟩
        · exact absurd h0 (by omega)
      · rintro (⟨hx, -⟩ | ⟨-, hbad⟩)
        · refine ⟨nfa.start, List.mem_singleton.mpr rfl, ?_⟩
          rw [hstart, show x = 0 from by omega]
        · exact absurd hbad (by decide)
    have hfold := chain_fold nfa (c0 :: cs) hget (by simp) sd 0
      (nfa.eps_closure [nfa.start]) (Nat.zero_le _) hinit
    rw [List.drop_zero] at hfold
    constructor
    · intro hmem
      have hmem2 : (2 * (c0 :: cs).length - 1) ∈
          sd.foldl (simStep nfa) (nfa.eps_closure [nfa.start]) := by
        rw [← hacc]
        exact hmem
      exact congrArg String.mk (hfold.mp hmem2)
    · intro hs
      have hd : sd = c0 :: cs := by injection hs
      rw [hacc]
      exact hfold.mpr hd

/-- Witness for `literal_concat_correct`: at pattern `"ab"` and input
`"ab"` the hypotheses hold and the compiled automaton accepts. -/
theorem literal_concat_correct_witness :
    (∀ c ∈ ("ab" : String).data, isLiteral c) ∧ ("ab" : String) ≠ "" ∧
      ∃ nfa, regex_to_nfa "ab" = Except.ok nfa ∧
        (nfa.simulate "ab" = true ↔ ("ab" : String) = "ab") :=
  ⟨by decide, by decide, literal_concat_correct "ab" "ab" (by decide) (by decide)⟩
